import Mathlib

/-!
Shallow embedding of the intent-aware retrieval and fusion engine of the
EnglishAgent repository (`rag_core/retriever.py`, `rag_core/intent_recognizer.py`,
`rag_core/prompt.py`), together with theorems settling the frozen claims.

Modelling conventions:
* Python floats are modelled as exact rationals (`ℚ`); all score arithmetic in
  the source is on small decimal literals, so the rational model tracks the
  intended arithmetic.
* Python dicts (insertion ordered) are modelled as association lists that
  update in place and append fresh keys at the end.
* `list.sort(key=..., reverse=True)` (Timsort, stable) is modelled by
  `List.insertionSort` with the relation `b.key ≤ a.key`, which produces the
  same list: both are the unique stable non-increasing reordering.
* Corpus chunk identifiers are modelled as natural numbers.
-/

/-! ## Basic string helpers shared by the embedding -/

/-- ASCII lower-casing of one character, as Python `str.lower` acts on the
ASCII range (the CJK characters appearing in this code base are unaffected
by `str.lower`). -/
def lowerChar (c : Char) : Char :=
  if 'A' ≤ c ∧ c ≤ 'Z' then Char.ofNat (c.toNat + 32) else c

/-- Python `str.lower` (restricted to the ASCII range, see `lowerChar`). -/
def lowerStr (s : String) : String :=
  ⟨s.data.map lowerChar⟩

/-- Is `n` a prefix of `h` (decidable, on character lists). -/
def listPre : List Char → List Char → Bool
  | [], _ => true
  | _ :: _, [] => false
  | a :: n, b :: h => a = b && listPre n h

/-- Python substring test `n in h` on character lists. -/
def subOf (n : List Char) : List Char → Bool
  | [] => listPre n []
  | c :: t => listPre n (c :: t) || subOf n t

/-- Python substring test `n in h` on strings. -/
def strIn (n h : String) : Bool := subOf n.data h.data

/-! ## Data model of `retriever.py`

A `Doc` is the candidate dictionary built by the retrieval strategies
(`id`, `content`, `word`, `chunk_type`, `score`, `strategy`). -/

structure Doc where
  id : ℕ
  content : String
  word : String
  chunk_type : String
  score : ℚ
  strategy : String
deriving DecidableEq, Repr

/-- The intent dictionary as consumed by the retriever: its `type` and
`target_word` entries (Python `None`/empty string both model as `""`,
matching the truthiness tests in the source). -/
structure Intent where
  type : String
  target_word : String
deriving DecidableEq, Repr

/-- `_adjust_strategy_weight_by_intent` from `retriever.py`: for synonym
intent, `exact_match`/`intention_aware` weights are scaled by 1.5 and
`semantic` by 0.8. -/
def adjust_strategy_weight_by_intent (strategy : String) (intent : Intent) (base : ℚ) : ℚ :=
  if intent.type = "synonym" then
    if strategy = "exact_match" ∨ strategy = "intention_aware" then base * (3/2)
    else if strategy = "semantic" then base * (4/5)
    else base
  else base

/-- The configured strategy weights of `Retriever.__init__`
(`semantic` 0.4, `keyword_bm25` 0.3, `intention_aware` 0.1).  The Python
dict lookup raises `KeyError` on other names; the fusion code only looks up
strategies that produced results, so the total function returning the
configured values is consulted exactly on the configured names. -/
def default_weights : String → ℚ := fun s =>
  if s = "semantic" then 2/5
  else if s = "keyword_bm25" then 3/10
  else if s = "intention_aware" then 1/10
  else 0

/-- The configured strategy list of `Retriever.__init__` (dict key order). -/
def default_strategies : List String := ["semantic", "keyword_bm25", "intention_aware"]

/-- One value of the ordered map `ranked_results` built by
`_intention_aware_fusion`: the first `Doc` seen with this id plus the
per-strategy score dict. -/
structure Entry where
  id : ℕ
  doc : Doc
  scores : List (String × ℚ)
deriving DecidableEq, Repr

/-- Assignment `d[k] = v` on an insertion-ordered dict modelled as an
association list: update in place if the key is present, else append. -/
def setAssocQ : List (String × ℚ) → String → ℚ → List (String × ℚ)
  | [], k, v => [(k, v)]
  | p :: t, k, v => if p.1 = k then (k, v) :: t else p :: setAssocQ t k v

/-- Ordered-dict lookup on the per-strategy score lists. -/
def lookupQ : List (String × ℚ) → String → Option ℚ
  | [], _ => none
  | p :: t, k => if p.1 = k then some p.2 else lookupQ t k

/-- Ordered-dict lookup on the per-strategy result map. -/
def lookupDocs : List (String × List Doc) → String → Option (List Doc)
  | [], _ => none
  | p :: t, k => if p.1 = k then some p.2 else lookupDocs t k

/-- The body of the inner loop of `_intention_aware_fusion`: create the
`ranked_results` entry for `doc["id"]` if absent, then assign
`scores[strategy] = (1 / (rank + 60)) * adjusted_weight`. -/
def upsertDoc (strategy : String) (rank : ℕ) (aw : ℚ) (doc : Doc) :
    List Entry → List Entry
  | [] => [⟨doc.id, doc, [(strategy, 1 / ((rank : ℚ) + 60) * aw)]⟩]
  | e :: t =>
      if e.id = doc.id then
        { e with scores := setAssocQ e.scores strategy (1 / ((rank : ℚ) + 60) * aw) } :: t
      else e :: upsertDoc strategy rank aw doc t

/-- The per-strategy loop of `_intention_aware_fusion`
(`for rank, doc in enumerate(all_results[strategy])`), with `n` the rank of
the first remaining doc (`enumerate` starts it at 0). -/
def processFrom (strategy : String) (aw : ℚ) : List Doc → ℕ → List Entry → List Entry
  | [], _, acc => acc
  | d :: t, n, acc => processFrom strategy aw t (n + 1) (upsertDoc strategy n aw d acc)

/-- The per-strategy loop of `_intention_aware_fusion`, ranks enumerated
from 0. -/
def process_strategy (strategy : String) (aw : ℚ) (docs : List Doc) (acc : List Entry) :
    List Entry :=
  processFrom strategy aw docs 0 acc

/-- The `ranked_results` map of `_intention_aware_fusion`: iterate the
requested strategies in order, skip strategies without a (non-empty) result
list, and fold their ranked docs in with the intent-adjusted weight. -/
def ranked_results (weights : String → ℚ) (strategies : List String)
    (allResults : List (String × List Doc)) (intent : Intent) : List Entry :=
  strategies.foldl
    (fun acc s =>
      match lookupDocs allResults s with
      | none => acc
      | some docs =>
          if docs = [] then acc
          else process_strategy s (adjust_strategy_weight_by_intent s intent (weights s)) docs acc)
    []

/-- A fused candidate: the copied doc plus `fusion_score` and
`strategy_scores`. -/
structure FusedDoc where
  doc : Doc
  fusion_score : ℚ
  strategy_scores : List (String × ℚ)
deriving DecidableEq, Repr

/-- The "compute weighted total" loop of `_intention_aware_fusion`. -/
def fuseEntries (entries : List Entry) : List FusedDoc :=
  entries.map (fun e => ⟨e.doc, (e.scores.map Prod.snd).sum, e.scores⟩)

/-- The ordering used by `fused_docs.sort(key=lambda x: x["fusion_score"],
reverse=True)`: `a` may come before `b` iff `b`'s score is at most `a`'s. -/
def fusedOrder (a b : FusedDoc) : Prop := b.fusion_score ≤ a.fusion_score

instance : DecidableRel fusedOrder := fun a b =>
  inferInstanceAs (Decidable (b.fusion_score ≤ a.fusion_score))

instance : IsTotal FusedDoc fusedOrder :=
  ⟨fun a b => le_total b.fusion_score a.fusion_score⟩

instance : IsTrans FusedDoc fusedOrder :=
  ⟨fun _ _ _ h₁ h₂ => le_trans h₂ h₁⟩

/-- `Retriever._intention_aware_fusion`: build the ranked map, total the
weighted RRF contributions, and stably sort by descending fused score. -/
def intention_aware_fusion (weights : String → ℚ) (strategies : List String)
    (allResults : List (String × List Doc)) (intent : Intent) : List FusedDoc :=
  List.insertionSort fusedOrder
    (fuseEntries (ranked_results weights strategies allResults intent))

/-- Number of `":"` characters in a content string (Python
`content.count(":")`). -/
def countColon (s : String) : ℕ := (s.data.filter (fun c => c = ':')).length

/-- The additive reranking bonus of `_detailed_rerank` for one candidate. -/
def rerank_score (intent : Intent) (doc : Doc) : ℚ :=
  let s₁ : ℚ :=
    if intent.target_word ≠ "" ∧ lowerStr intent.target_word = lowerStr doc.word
    then 3/10 else 0
  let s₂ : ℚ :=
    if intent.type = "synonym" ∧ doc.chunk_type = "semantic_network" then 2/5
    else if intent.type = "definition" ∧ doc.chunk_type = "definition" then 2/5
    else if intent.type = "example" ∧ doc.chunk_type = "examples" then 2/5
    else 0
  let synCount : ℚ :=
    if strIn "同近义词" doc.content then (countColon doc.content : ℚ) else 0
  let s₃ : ℚ :=
    if intent.type = "synonym" then
      (if strIn "同近义词" doc.content then 1/5 else 0) + min (synCount * (1/20)) (1/10)
    else 0
  let n := doc.content.length
  let s₄ : ℚ :=
    if 50 ≤ n ∧ n ≤ 500 then 1/10
    else if 1000 < n then -(1/10)
    else 0
  s₁ + s₂ + s₃ + s₄

/-- `_detailed_rerank`: add the rerank bonus to every candidate's
`fusion_score`, then stably re-sort descending. -/
def detailed_rerank (candidates : List FusedDoc) (intent : Intent) : List FusedDoc :=
  List.insertionSort fusedOrder
    (candidates.map (fun fd => { fd with fusion_score := fd.fusion_score + rerank_score intent fd.doc }))

/-- Fusion followed by fine reranking as composed in
`Retriever.multi_way_retrieve` (steps 2 and 3 plus the final truncation). -/
def fuse_and_rerank (weights : String → ℚ) (strategies : List String)
    (allResults : List (String × List Doc)) (intent : Intent) (top_k : ℕ) : List FusedDoc :=
  ((detailed_rerank
      ((intention_aware_fusion weights strategies allResults intent).take (top_k * 3))
      intent).take top_k)

/-- Outcome of one retrieval strategy call inside
`_execute_intention_aware_retrieval`: the strategy body returns a doc list,
raises (the `except` arm stores `[]`), or the strategy name matches no
`if`/`elif` arm so that no entry is stored at all. -/
inductive StrategyOutcome where
  | ok (docs : List Doc)
  | raises
  | unknown
deriving DecidableEq, Repr

/-- Dict assignment for the `results` map of
`_execute_intention_aware_retrieval`. -/
def setAssocDocs : List (String × List Doc) → String → List Doc → List (String × List Doc)
  | [], k, v => [(k, v)]
  | p :: t, k, v => if p.1 = k then (k, v) :: t else p :: setAssocDocs t k v

/-- `Retriever._execute_intention_aware_retrieval`, with the strategy
bodies (external vector-index and embedding calls) abstracted by the
outcome oracle `run`. -/
def execute_intention_aware_retrieval (strategies : List String)
    (run : String → StrategyOutcome) : List (String × List Doc) :=
  strategies.foldl
    (fun acc s =>
      match run s with
      | .ok docs => setAssocDocs acc s docs
      | .raises => setAssocDocs acc s []
      | .unknown => acc)
    []

/-- `Retriever.multi_way_retrieve`: execute the strategies, fuse, rerank the
top `3 * top_k`, return the top `top_k`. -/
def multi_way_retrieve (weights : String → ℚ) (strategies : List String)
    (run : String → StrategyOutcome) (intent : Intent) (top_k : ℕ) : List FusedDoc :=
  fuse_and_rerank weights strategies (execute_intention_aware_retrieval strategies run)
    intent top_k

/-! ## Specification-side formulas used to state the fusion claims -/

/-- The strategies that actually contribute in `_intention_aware_fusion`,
paired with their (non-empty) result lists, in processing order. -/
def strategyLists (strategies : List String) (allResults : List (String × List Doc)) :
    List (String × List Doc) :=
  strategies.filterMap (fun s =>
    match lookupDocs allResults s with
    | none => none
    | some docs => if docs = [] then none else some (s, docs))

/-- The weighted reciprocal-rank contributions of candidate `i`, one per
strategy whose result list contains `i`: `weight / (rank + 60)`, with
`rank` the (unique, given dedup'd result lists) 0-based position of `i` and
`weight` the intent-adjusted strategy weight.  This is the formula of the
claim, stated independently of the fusion fold. -/
def rrf_contributions (weights : String → ℚ) (strategies : List String)
    (allResults : List (String × List Doc)) (intent : Intent) (i : ℕ) : List ℚ :=
  strategies.filterMap (fun s =>
    match lookupDocs allResults s with
    | none => none
    | some docs =>
        if i ∈ docs.map Doc.id then
          some (1 / (((docs.map Doc.id).indexOf i : ℚ) + 60) *
            adjust_strategy_weight_by_intent s intent (weights s))
        else none)

/-- The per-strategy score dict candidate `i` ends up with after the
active lists `L` are folded into an initially empty map. -/
def specScores (weights : String → ℚ) (intent : Intent) (L : List (String × List Doc))
    (i : ℕ) : List (String × ℚ) :=
  L.filterMap (fun p =>
    if i ∈ p.2.map Doc.id then
      some (p.1, 1 / (((p.2.map Doc.id).indexOf i : ℚ) + 60) *
        adjust_strategy_weight_by_intent p.1 intent (weights p.1))
    else none)

/-- Does candidate `i` occur in one of the active lists? -/
def occursIn (L : List (String × List Doc)) (i : ℕ) : Prop :=
  ∃ p ∈ L, i ∈ p.2.map Doc.id

instance (L : List (String × List Doc)) (i : ℕ) : Decidable (occursIn L i) :=
  inferInstanceAs (Decidable (∃ p ∈ L, i ∈ p.2.map Doc.id))

/-- The fold of the active strategy lists into the (initially empty)
`ranked_results` map; `ranked_results` is proved equal to this fold. -/
def listFold (weights : String → ℚ) (intent : Intent) :
    List (String × List Doc) → List Entry → List Entry
  | [], acc => acc
  | p :: T, acc =>
      listFold weights intent T
        (process_strategy p.1 (adjust_strategy_weight_by_intent p.1 intent (weights p.1)) p.2 acc)

/-- Scores dict of the `ranked_results` entry for candidate `i`. -/
def entryScores : List Entry → ℕ → Option (List (String × ℚ))
  | [], _ => none
  | e :: t, i => if e.id = i then some e.scores else entryScores t i

/-! ## Model of `_semantic_retrieval` (for the C7 claim)

The formatted result dict is modelled as an association list of tagged
values so that the dict access `doc["semantic_score"]` can be evaluated
faithfully: the dict built by the source has keys `id`, `content`, `word`,
`chunk_type`, `score` and `strategy` only, and Python raises `KeyError`. -/

inductive DVal where
  | s (v : String)
  | q (v : ℚ)
  | n (v : ℕ)
deriving DecidableEq, Repr

/-- One hit returned by `milvus_client.semantic_search` (external). -/
structure Hit where
  id : ℕ
  content : String
  word : String
  chunk_type : String
  score : ℚ
deriving DecidableEq, Repr

/-- The `doc` dict of `_semantic_retrieval` right after construction. -/
def hitDict (h : Hit) : List (String × DVal) :=
  [("id", .n h.id), ("content", .s h.content), ("word", .s h.word),
   ("chunk_type", .s h.chunk_type), ("score", .q h.score), ("strategy", .s "semantic")]

/-- Dict lookup returning `none` where Python raises `KeyError`. -/
def lookupDVal : List (String × DVal) → String → Option DVal
  | [], _ => none
  | p :: t, k => if p.1 = k then some p.2 else lookupDVal t k

/-- `_adjust_score_by_intent` from `retriever.py`: target-word bonus 0.3,
chunk-type bonus 0.4, synonym content bonus 0.2, capped at 1.0. -/
def adjust_score_by_intent (intent : Intent) (word chunk_type content : String)
    (base : ℚ) : ℚ :=
  let a₁ := base +
    (if intent.target_word ≠ "" ∧ lowerStr intent.target_word = lowerStr word
     then 3/10 else 0)
  let a₂ := a₁ +
    (if intent.type = "synonym" ∧ chunk_type = "semantic_network" then 2/5
     else if intent.type = "definition" ∧ chunk_type = "definition" then 2/5
     else if intent.type = "example" ∧ chunk_type = "examples" then 2/5
     else 0)
  let a₃ := a₂ + (if intent.type = "synonym" ∧ strIn "同近义词" content then 1/5 else 0)
  min a₃ 1

/-- The formatting loop of `Retriever._semantic_retrieval`: for each hit it
builds the result dict and then evaluates
`_adjust_score_by_intent(doc, intent, doc["semantic_score"])`; the dict has
no key `semantic_score`, which in Python raises `KeyError` (modelled as
`Except.error`). -/
def semantic_retrieval : List Hit → Intent → Except String (List (List (String × DVal)))
  | [], _ => .ok []
  | h :: t, intent =>
      let dict := hitDict h
      match lookupDVal dict "semantic_score" with
      | some (.q base) =>
          match semantic_retrieval t intent with
          | .ok rest =>
              .ok ((dict ++ [("intention_adjusted_score",
                DVal.q (adjust_score_by_intent intent h.word h.chunk_type h.content base))]) :: rest)
          | .error e => .error e
      | _ => .error "KeyError: semantic_score"

/-! ## Concrete inputs used by counterexamples and witnesses -/

/-- A candidate doc with the given id and irrelevant payload. -/
def mkDoc (i : ℕ) : Doc := ⟨i, "", "", "", 0, ""⟩

/-- Semantic strategy result list for the C6 counterexample: 37 docs, with
candidate 5 at rank 32 and candidate 2 at rank 36.  Candidates 900, 901,
902 (ranks 20, 24, 28) also occur in the keyword list, so their
contributions sum instead of tying. -/
def c6semantic : List Doc :=
  (List.range 37).map (fun r => mkDoc
    (if r = 32 then 5 else if r = 36 then 2
     else if r = 20 then 900 else if r = 24 then 901 else if r = 28 then 902
     else 100 + r))

/-- Keyword strategy result list for the C6 counterexample: candidate 3 at
rank 9 and candidate 4 at rank 12.  With the configured weights,
candidate 5 ties candidate 3 (0.4/92 = 0.3/69 = 1/230) and candidate 2
ties candidate 4 (0.4/96 = 0.3/72 = 1/240).  Both ties are exact in IEEE
double arithmetic too: `1/92*0.4` and `1/69*0.3` both evaluate to
0.004347826086956522, and `1/96*0.4` and `1/72*0.3` both evaluate to
0.004166666666666667, so the program computes the same two ties — and the
same output order — as this exact-rational model. -/
def c6keyword : List Doc :=
  (List.range 13).map (fun r => mkDoc
    (if r = 9 then 3 else if r = 12 then 4
     else if r = 0 then 900 else if r = 3 then 901 else if r = 6 then 902
     else 200 + r))

/-- The strategy-results map for the C6 counterexample. -/
def c6allResults : List (String × List Doc) :=
  [("semantic", c6semantic), ("keyword_bm25", c6keyword)]

/-- The ordering asserted by claim C6: strictly descending fused score,
with ties broken by ascending candidate id. -/
def c6ClaimOrdering (l : List FusedDoc) : Prop :=
  l.Pairwise (fun a b =>
    b.fusion_score < a.fusion_score ∨
    (b.fusion_score = a.fusion_score ∧ a.doc.id < b.doc.id))

/-- A neutral intent (no weight adjustment, no target word). -/
def generalIntent : Intent := ⟨"general", ""⟩

/-- A concrete hit for the C7 witness. -/
def c7hit : Hit := ⟨1, "content", "sensible", "definition", 7/10⟩

/-- Weight configuration for the C8 witness: the semantic weight raised
from 0.4 to 0.5, everything else as configured. -/
def c8w2 : String → ℚ := fun t => if t = "semantic" then 1/2 else default_weights t

/-! ## Character classes and string helpers for `intent_recognizer.py`

Python's Unicode-aware `\s`, `\w`, `str.isupper` and `str.lower` are
modelled on the character repertoire this code base uses: ASCII plus CJK
ideographs and full-width punctuation.  -/

/-- Python `\s` (whitespace), covering ASCII whitespace plus the no-break
and ideographic spaces. -/
def isSpaceChar (c : Char) : Bool :=
  c = ' ' || c = '\t' || c = '\n' || c = '\r' || c = '\x0b' || c = '\x0c' ||
  c = ' ' || c = '　'

/-- ASCII letter. -/
def isAsciiAlpha (c : Char) : Bool :=
  ('A' ≤ c && c ≤ 'Z') || ('a' ≤ c && c ≤ 'z')

/-- ASCII digit. -/
def isAsciiDigit (c : Char) : Bool := '0' ≤ c && c ≤ '9'

/-- ASCII uppercase letter (the cased characters of this code base are
ASCII). -/
def isUpperChar (c : Char) : Bool := 'A' ≤ c && c ≤ 'Z'

/-- A CJK ideograph, the range `[一-鿿]` used throughout the
source. -/
def isCJKChar (c : Char) : Bool := 0x4e00 ≤ c.toNat && c.toNat ≤ 0x9fff

/-- Python `\w` (word character) on the repertoire used here: ASCII
alphanumerics, underscore, and CJK ideographs. -/
def isWordChar (c : Char) : Bool :=
  isAsciiAlpha c || isAsciiDigit c || c = '_' || isCJKChar c

/-- Python `str.isupper`: some cased character, and no lowercase cased
character (cased characters modelled as ASCII letters). -/
def strIsUpper (s : String) : Bool :=
  s.data.any (fun c => isAsciiAlpha c) &&
  s.data.all (fun c => !isAsciiAlpha c || isUpperChar c)

/-- Python `str.strip()` (whitespace at both ends). -/
def stripWS (s : String) : String :=
  ⟨((s.data.dropWhile isSpaceChar).reverse.dropWhile isSpaceChar).reverse⟩

/-- Case-insensitive prefix test (ASCII case folding, like Python
`re.IGNORECASE` on this repertoire). -/
def listPreCI : List Char → List Char → Bool
  | [], _ => true
  | _ :: _, [] => false
  | a :: n, b :: h => lowerChar a = lowerChar b && listPreCI n h

/-- Case-insensitive substring test. -/
def subOfCI (n : List Char) : List Char → Bool
  | [] => listPreCI n []
  | c :: t => listPreCI n (c :: t) || subOfCI n t

/-- Case-insensitive Python substring test on strings. -/
def strInCI (n h : String) : Bool := subOfCI n.data h.data

/-- Index of the first occurrence of `n` in `h` (Python `str.find`,
`none` for Python's `-1`). -/
def findSub (n : List Char) : List Char → Option ℕ
  | [] => if listPre n [] then some 0 else none
  | c :: t =>
      if listPre n (c :: t) then some 0
      else (findSub n t).map (fun i => i + 1)

/-- Tokenizer for Python `str.split()` (split on whitespace runs, no
empty tokens); `cur` is the current token, reversed. -/
def wsTokensAux : List Char → List Char → List (List Char)
  | [], cur => if cur = [] then [] else [cur.reverse]
  | c :: t, cur =>
      if isSpaceChar c then
        if cur = [] then wsTokensAux t [] else cur.reverse :: wsTokensAux t []
      else wsTokensAux t (c :: cur)

/-- Python `str.split()`. -/
def wsSplit (s : String) : List String :=
  (wsTokensAux s.data []).map (fun l => ⟨l⟩)

/-- Tokenizer for `re.findall(r'\b\w+\b', text)`: maximal runs of word
characters. -/
def wordTokensAux : List Char → List Char → List (List Char)
  | [], cur => if cur = [] then [] else [cur.reverse]
  | c :: t, cur =>
      if isWordChar c then wordTokensAux t (c :: cur)
      else if cur = [] then wordTokensAux t [] else cur.reverse :: wordTokensAux t []

/-- The word tokens of a text, as used by `_calculate_text_similarity`. -/
def wordTokens (s : String) : List String :=
  (wordTokensAux s.data []).map (fun l => ⟨l⟩)

/-- First-occurrence deduplication (determinises Python's `set`; only
sizes and membership matter where it is used). -/
def dedupKeepFirst : List String → List String
  | [] => []
  | x :: t => if t.contains x then
      (if (dedupKeepFirst t).contains x then dedupKeepFirst t else x :: dedupKeepFirst t)
    else x :: dedupKeepFirst t

/-- Delete every (leftmost, non-overlapping) case-insensitive occurrence
of `p` (Python `re.sub(pattern, '', s, flags=re.IGNORECASE)` for a literal
pattern); `fuel` bounds the recursion and starts at the text length. -/
def removeCIAux (p : List Char) : List Char → ℕ → List Char
  | cs, 0 => cs
  | [], _ => []
  | c :: t, fuel + 1 =>
      if listPreCI p (c :: t) then removeCIAux p ((c :: t).drop p.length) fuel
      else c :: removeCIAux p t fuel

/-- Global case-insensitive literal deletion. -/
def removeAllCI (pat s : String) : String :=
  match pat.data with
  | [] => s
  | p => ⟨removeCIAux p s.data s.data.length⟩

/-- First result of `f` over a list (models Python loops that `return` on
the first hit). -/
def firstSome {α β : Type} (l : List α) (f : α → Option β) : Option β :=
  match l with
  | [] => none
  | x :: t =>
      match f x with
      | some b => some b
      | none => firstSome t f

/-- Python `max(l, key=...)`: the first element with maximal value. -/
def maxByVal {α β : Type} [LinearOrder β] : List (α × β) → Option (α × β)
  | [] => none
  | x :: t => some (t.foldl (fun b y => if y.2 > b.2 then y else b) x)

/-- Python `max` over a list of scores (0 for the empty list, matching the
`if intent_scores else 0` guards at the call sites). -/
def maxQ : List ℚ → ℚ
  | [] => 0
  | x :: t => t.foldl (fun b y => if y > b then y else b) x

/-! ## A small backtracking regular-expression engine

Exactly the fragment of Python `re` used by `intent_recognizer.py`:
literals (optionally case-insensitive), single-character classes, `.`,
concatenation, ordered alternation, `?`, greedy and lazy counted
repetition of single-character atoms (every quantifier in the source
applies to a single-character atom), capturing groups, and
single-character negative lookahead/lookbehind.  `matchAt` is a
continuation-passing backtracking matcher whose preference order (ordered
alternation, greedy = longest first, lazy = shortest first, leftmost
search position) is Python's. -/

inductive RE where
  | eps
  | cls (p : Char → Bool)
  | lit (ci : Bool) (s : List Char)
  | cat (a b : RE)
  | alt (a b : RE)
  | opt (a : RE)
  | rep (p : Char → Bool) (lo : ℕ) (hi : Option ℕ) (lazy : Bool)
  | grp (idx : ℕ) (a : RE)
  | nlb (p : Char → Bool)
  | nla (p : Char → Bool)

/-- Capture map: group index to (start, stop) positions. -/
def Caps := List (ℕ × ℕ × ℕ)

/-- Record a group span. -/
def setCap : Caps → ℕ → ℕ → ℕ → Caps
  | [], i, a, b => [(i, a, b)]
  | c :: t, i, a, b => if c.1 = i then (i, a, b) :: t else c :: setCap t i a b

/-- Get a group span. -/
def getCap : Caps → ℕ → Option (ℕ × ℕ)
  | [], _ => none
  | c :: t, i => if c.1 = i then some c.2 else getCap t i

/-- Character comparison, optionally ASCII-case-insensitive. -/
def charEq (ci : Bool) (a b : Char) : Bool :=
  if ci then lowerChar a = lowerChar b else a = b

/-- Does the literal `pat` start at the head of `txt`? -/
def litHere (ci : Bool) : List Char → List Char → Bool
  | [], _ => true
  | _ :: _, [] => false
  | a :: pa, b :: tb => charEq ci a b && litHere ci pa tb

/-- The candidate repetition counts, in the engine's preference order. -/
def repCounts (lo upper : ℕ) (lazy : Bool) : List ℕ :=
  if lo > upper then []
  else
    let base := (List.range (upper - lo + 1)).map (fun j => lo + j)
    if lazy then base else base.reverse

/-- The backtracking matcher: try to match `re` at position `pos` of `cs`
and continue with `k`. -/
def matchAt (cs : List Char) : RE → ℕ → Caps → (ℕ → Caps → Option (ℕ × Caps)) →
    Option (ℕ × Caps)
  | .eps, pos, caps, k => k pos caps
  | .cls p, pos, caps, k =>
      match cs.get? pos with
      | some c => if p c then k (pos + 1) caps else none
      | none => none
  | .lit ci s, pos, caps, k =>
      if litHere ci s (cs.drop pos) then k (pos + s.length) caps else none
  | .cat a b, pos, caps, k =>
      matchAt cs a pos caps (fun pos' caps' => matchAt cs b pos' caps' k)
  | .alt a b, pos, caps, k =>
      match matchAt cs a pos caps k with
      | some r => some r
      | none => matchAt cs b pos caps k
  | .opt a, pos, caps, k =>
      match matchAt cs a pos caps k with
      | some r => some r
      | none => k pos caps
  | .rep p lo hi lazy, pos, caps, k =>
      let m := ((cs.drop pos).takeWhile p).length
      let upper := match hi with | none => m | some h => min h m
      firstSome (repCounts lo upper lazy) (fun n => k (pos + n) caps)
  | .grp i a, pos, caps, k =>
      matchAt cs a pos caps (fun pos' caps' => k pos' (setCap caps' i pos pos'))
  | .nlb p, pos, caps, k =>
      match pos with
      | 0 => k pos caps
      | pos' + 1 =>
          match cs.get? pos' with
          | some c => if p c then none else k pos caps
          | none => k pos caps
  | .nla p, pos, caps, k =>
      match cs.get? pos with
      | some c => if p c then none else k pos caps
      | none => k pos caps

/-- One match: start, stop, captures. -/
structure REMatch where
  startPos : ℕ
  stopPos : ℕ
  caps : Caps

/-- `re.search` from a given start position: leftmost match. -/
def searchFrom (cs : List Char) (re : RE) (start : ℕ) : Option REMatch :=
  firstSome ((List.range (cs.length + 1 - start)).map (fun j => start + j))
    (fun pos =>
      (matchAt cs re pos [] (fun e c => some (e, c))).map (fun r => ⟨pos, r.1, r.2⟩))

/-- Python `re.search`. -/
def reSearch (re : RE) (s : String) : Option REMatch := searchFrom s.data re 0

/-- The substring of `cs` from `a` (inclusive) to `b` (exclusive). -/
def sliceStr (cs : List Char) (a b : ℕ) : String := ⟨(cs.drop a).take (b - a)⟩

/-- `match.group(i)` (`none` for a non-participating group). -/
def capGroup (cs : List Char) (m : REMatch) (i : ℕ) : Option String :=
  (getCap m.caps i).map (fun se => sliceStr cs se.1 se.2)

/-- Groups `1..n` of a match, with `""` where Python would give `None` or
an empty string (both falsy at every use site in the source). -/
def groupsList (cs : List Char) (m : REMatch) (n : ℕ) : List String :=
  (List.range n).map (fun j => (capGroup cs m (j + 1)).getD "")

/-- Python `re.findall` loop: after each match continue at its end (one
past it for an empty match); `fuel` starts at `length + 1`. -/
def findallAux (cs : List Char) (re : RE) : ℕ → ℕ → List REMatch
  | _, 0 => []
  | pos, fuel + 1 =>
      match searchFrom cs re pos with
      | none => []
      | some m =>
          let next := if m.stopPos = m.startPos then m.stopPos + 1 else m.stopPos
          m :: findallAux cs re next fuel

/-- Python `re.findall`, as matches. -/
def findall (re : RE) (s : String) : List REMatch :=
  findallAux s.data re 0 (s.data.length + 1)

/-- `re.findall` for a pattern with no group: the whole matches. -/
def findallWhole (re : RE) (s : String) : List String :=
  (findall re s).map (fun m => sliceStr s.data m.startPos m.stopPos)

/-- `re.findall` for a pattern with one group: the group-1 strings. -/
def findallG1 (re : RE) (s : String) : List String :=
  (findall re s).map (fun m => (capGroup s.data m 1).getD "")

/-- Sequence a list of regexes. -/
def reSeq : List RE → RE
  | [] => .eps
  | [a] => a
  | a :: rest => .cat a (reSeq rest)

/-- Ordered alternation of a list of regexes. -/
def reAny : List RE → RE
  | [] => .cls (fun _ => false)
  | [a] => a
  | a :: rest => .alt a (reAny rest)

/-- Case-sensitive literal. -/
def reStr (s : String) : RE := .lit false s.data

/-- Case-insensitive literal (`re.IGNORECASE`). -/
def reStrCI (s : String) : RE := .lit true s.data

/-- Python `.` (any character except newline). -/
def dotP : Char → Bool := fun c => c ≠ '\n'

/-- Character class from an explicit list. -/
def inSet (l : List Char) : Char → Bool := fun c => l.contains c

/-- Negated class `[^...\s]`. -/
def notInSetWS (l : List Char) : Char → Bool :=
  fun c => !(l.contains c || isSpaceChar c)


/-! ## The concrete regular expressions of `intent_recognizer.py` -/

/-- The apostrophe character (used by quoted-target extraction). -/
def apos : Char := Char.ofNat 39

/-- `(.{1,30}?)` as group `i`. -/
def grpLazy130 (i : ℕ) : RE := .grp i (.rep dotP 1 (some 30) true)

/-- `(?:的)?` under `re.IGNORECASE` (case folding does not affect CJK). -/
def optDe : RE := .opt (reStrCI "的")

/-- `\s+`. -/
def wsPlus : RE := .rep isSpaceChar 1 none false

/-- `\s*`. -/
def wsStar : RE := .rep isSpaceChar 0 none false

/-- `(.+)` as group `i`. -/
def dotPlusG (i : ℕ) : RE := .grp i (.rep dotP 1 none false)

/-- `(.+?)` as group `i`. -/
def dotPlusLazyG (i : ℕ) : RE := .grp i (.rep dotP 1 none true)

/-- `(?:l₀|l₁|…)` over case-insensitive literals. -/
def altCI (l : List String) : RE := reAny (l.map reStrCI)

/-- `(?:l₀|l₁|…)` over case-sensitive literals. -/
def altCS (l : List String) : RE := reAny (l.map reStr)

/-- `(.{1,30}?)(?:的)?(?:同义词|近义词|相似词)`. -/
def reSynZh : RE := reSeq [grpLazy130 1, optDe, altCI ["同义词", "近义词", "相似词"]]

/-- `(?:synonyms?|similar words? to|words like)\s+(.+)`. -/
def reSynEn : RE :=
  reSeq [reAny [reSeq [reStrCI "synonym", .opt (reStrCI "s")],
      reSeq [reStrCI "similar word", .opt (reStrCI "s"), reStrCI " to"],
      reStrCI "words like"],
    wsPlus, dotPlusG 1]

/-- `(.{1,30}?)(?:的)?(?:定义|意思|含义|释义|是什么)`. -/
def reDefZh : RE := reSeq [grpLazy130 1, optDe, altCI ["定义", "意思", "含义", "释义", "是什么"]]

/-- `(?:what is|what does)\s+(.+?)\s*(?:mean)?`. -/
def reDefEn : RE :=
  reSeq [reAny [reStrCI "what is", reStrCI "what does"], wsPlus, dotPlusLazyG 1,
    wsStar, .opt (reStrCI "mean")]

/-- `(.{1,30}?)(?:的)?(?:例句|用法|造句)`. -/
def reExZh : RE := reSeq [grpLazy130 1, optDe, altCI ["例句", "用法", "造句"]]

/-- `(?:example|usage) of\s+(.+)`. -/
def reExEn1 : RE :=
  reSeq [reAny [reStrCI "example", reStrCI "usage"], reStrCI " of", wsPlus, dotPlusG 1]

/-- `use\s+(.+?)\s+in a sentence`. -/
def reExEn2 : RE :=
  reSeq [reStrCI "use", wsPlus, dotPlusLazyG 1, wsPlus, reStrCI "in a sentence"]

/-- `(.{1,30}?)(?:的)?(?:短语|搭配|词组|固定搭配)`. -/
def rePhrZh : RE := reSeq [grpLazy130 1, optDe, altCI ["短语", "搭配", "词组", "固定搭配"]]

/-- `(?:phrases?|collocations?)\s+of\s+(.+)`. -/
def rePhrEn : RE :=
  reSeq [reAny [reSeq [reStrCI "phrase", .opt (reStrCI "s")],
      reSeq [reStrCI "collocation", .opt (reStrCI "s")]],
    wsPlus, reStrCI "of", wsPlus, dotPlusG 1]

/-- `(.{1,30}?)(?:怎么读|发音|读音|读法)`. -/
def reProZh : RE := reSeq [grpLazy130 1, altCI ["怎么读", "发音", "读音", "读法"]]

/-- `(?:how to pronounce|pronunciation of)\s+(.+)`. -/
def reProEn : RE :=
  reSeq [reAny [reStrCI "how to pronounce", reStrCI "pronunciation of"], wsPlus, dotPlusG 1]

/-- `(.{1,30}?)(?:的)?(?:词源|来源|起源|词根)`. -/
def reEtyZh : RE := reSeq [grpLazy130 1, optDe, altCI ["词源", "来源", "起源", "词根"]]

/-- `(?:etymology|origin) of\s+(.+)`. -/
def reEtyEn : RE :=
  reSeq [reAny [reStrCI "etymology", reStrCI "origin"], reStrCI " of", wsPlus, dotPlusG 1]

/-- `(.{1,30}?)(?:和|与)(.{1,30}?)(?:的)?(?:区别|不同|差异)`. -/
def reCmpZh : RE :=
  reSeq [grpLazy130 1, altCI ["和", "与"], .grp 2 (.rep dotP 1 (some 30) true),
    optDe, altCI ["区别", "不同", "差异"]]

/-- `(?:difference between|A vs B)\s+(.+)`. -/
def reCmpEn : RE :=
  reSeq [reAny [reStrCI "difference between", reStrCI "A vs B"], wsPlus, dotPlusG 1]

/-- `(.{1,30}?)(?:的)?(?:反义词|相反词)`. -/
def reAntZh : RE := reSeq [grpLazy130 1, optDe, altCI ["反义词", "相反词"]]

/-- `(?:antonyms?|opposite of)\s+(.+)`. -/
def reAntEn : RE :=
  reSeq [reAny [reSeq [reStrCI "antonym", .opt (reStrCI "s")], reStrCI "opposite of"],
    wsPlus, dotPlusG 1]

/-- `(.{1,30}?)(?:怎么用|用法|语法|使用)`. -/
def reUsgZh : RE := reSeq [grpLazy130 1, altCI ["怎么用", "用法", "语法", "使用"]]

/-- `(?:how to use|grammar of)\s+(.+)`. -/
def reUsgEn : RE :=
  reSeq [reAny [reStrCI "how to use", reStrCI "grammar of"], wsPlus, dotPlusG 1]

/-- `(.{1,30}?)(?:的)?(?:派生词|相关词|词性|变形)`. -/
def reFamZh : RE := reSeq [grpLazy130 1, optDe, altCI ["派生词", "相关词", "词性", "变形"]]

/-- `(?:related words|derivatives? of)\s+(.+)`. -/
def reFamEn : RE :=
  reSeq [reAny [reStrCI "related words",
      reSeq [reStrCI "derivative", .opt (reStrCI "s"), reStrCI " of"]],
    wsPlus, dotPlusG 1]

/-- `(.{1,30}?)(?:正式吗|正式用语|口语表达|正式程度)`. -/
def reForZh : RE := reSeq [grpLazy130 1, altCI ["正式吗", "正式用语", "口语表达", "正式程度"]]

/-- `(?:formal or informal|formality of)\s+(.+)`. -/
def reForEn : RE :=
  reSeq [reAny [reStrCI "formal or informal", reStrCI "formality of"], wsPlus, dotPlusG 1]

/-- The ordered pattern table of `_pattern_based_recognition` (intent,
patterns with group counts). -/
def patternsTable : List (String × List (RE × ℕ)) :=
  [("synonym", [(reSynZh, 1), (reSynEn, 1)]),
   ("definition", [(reDefZh, 1), (reDefEn, 1)]),
   ("example", [(reExZh, 1), (reExEn1, 1), (reExEn2, 1)]),
   ("phrase", [(rePhrZh, 1), (rePhrEn, 1)]),
   ("pronunciation", [(reProZh, 1), (reProEn, 1)]),
   ("etymology", [(reEtyZh, 1), (reEtyEn, 1)]),
   ("comparison", [(reCmpZh, 2), (reCmpEn, 1)]),
   ("antonym", [(reAntZh, 1), (reAntEn, 1)]),
   ("usage_note", [(reUsgZh, 1), (reUsgEn, 1)]),
   ("word_family", [(reFamZh, 1), (reFamEn, 1)]),
   ("formality", [(reForZh, 1), (reForEn, 1)])]

/-- `[「『"](.+?)[」』"]`. -/
def reQuote1 : RE := reSeq [.cls (inSet ['「', '『', '"']), dotPlusLazyG 1,
  .cls (inSet ['」', '』', '"'])]

/-- A quoted span between apostrophes. -/
def reQuote2 : RE := reSeq [.lit false [apos], dotPlusLazyG 1, .lit false [apos]]

/-- `"(.+?)"`. -/
def reQuote3 : RE := reSeq [reStr "\"", dotPlusLazyG 1, reStr "\""]

/-- `【(.+?)】`. -/
def reQuote4 : RE := reSeq [reStr "【", dotPlusLazyG 1, reStr "】"]

/-- `《(.+?)》`. -/
def reQuote5 : RE := reSeq [reStr "《", dotPlusLazyG 1, reStr "》"]

/-- The quoted-target patterns, in source order. -/
def quotedPatterns : List RE := [reQuote1, reQuote2, reQuote3, reQuote4, reQuote5]

/-- `(?<![A-Za-z])([A-Za-z][A-Za-z-]*[A-Za-z])(?![A-Za-z])`. -/
def reEngToken : RE :=
  reSeq [.nlb isAsciiAlpha,
    .grp 1 (reSeq [.cls isAsciiAlpha,
      .rep (fun c => isAsciiAlpha c || c = '-') 0 none false, .cls isAsciiAlpha]),
    .nla isAsciiAlpha]

/-- `(?<![A-Za-z])[A-Za-z]{3,}(?![A-Za-z])`. -/
def reEngCore : RE :=
  reSeq [.nlb isAsciiAlpha, .rep isAsciiAlpha 3 none false, .nla isAsciiAlpha]

/-- `[一-鿿]{2,6}` (the CJK range literal of the source). -/
def reCJK26 : RE := .rep isCJKChar 2 (some 6) false

/-- The class complement `[^的，,；;。.?？!！\s]` of the first two Chinese
extraction patterns. -/
def zhExcl1 : List Char := ['的', '，', ',', '；', ';', '。', '.', '?', '？', '!', '！']

/-- `([^的，,；;。.?？!！\s]{1,6})(?:的)?(?:同义词|…|短语)`. -/
def reZh1 : RE :=
  reSeq [.grp 1 (.rep (notInSetWS zhExcl1) 1 (some 6) false), .opt (reStr "的"),
    altCS ["同义词", "近义词", "相似词", "反义词", "定义", "意思", "含义", "解释",
      "例句", "例子", "用法", "发音", "读音", "词源", "词根", "词缀", "搭配", "短语"]]

/-- `(?:查询|查找|搜索|找|什么是|解释|定义)([^的，,；;。.?？!！\s]{1,6})`. -/
def reZh2 : RE :=
  reSeq [altCS ["查询", "查找", "搜索", "找", "什么是", "解释", "定义"],
    .grp 1 (.rep (notInSetWS zhExcl1) 1 (some 6) false)]

/-- Characters excluded by `[^和与跟及以及\s]`. -/
def zhExcl3a : List Char := ['和', '与', '跟', '及', '以']

/-- Characters excluded by `[^的区别差异不同]` (no `\s` here). -/
def zhExcl3b : List Char := ['的', '区', '别', '差', '异', '不', '同']

/-- `([^和与跟及以及\s]{1,6})(?:和|与|跟|及|以及)([^的区别差异不同]{1,6})(?:的)?(?:区别|差异|不同)`. -/
def reZh3 : RE :=
  reSeq [.grp 1 (.rep (notInSetWS zhExcl3a) 1 (some 6) false),
    altCS ["和", "与", "跟", "及", "以及"],
    .grp 2 (.rep (fun c => !(zhExcl3b.contains c)) 1 (some 6) false),
    .opt (reStr "的"), altCS ["区别", "差异", "不同"]]

/-- The Chinese extraction patterns of `_extract_target_word`, with group
counts. -/
def chinesePatterns : List (RE × ℕ) := [(reZh1, 1), (reZh2, 1), (reZh3, 2)]

/-! ## The data tables of `rag_core/prompt.py` -/

/-- `INTENT_KEYWORDS` (insertion order and duplicate entries kept). -/
def INTENT_KEYWORDS : List (String × List String) :=
  [("synonym", ["同义词", "近义词", "相似词", "同类词", "意思相近的词", "替代词", "替换词",
      "synonym", "similar", "alternative word", "thesaurus"]),
   ("definition", ["定义", "意思", "含义", "释义", "解释", "什么意思", "是什么意思", "什么叫", "啥意思",
      "翻译", "define", "definition", "meaning", "what does it mean",
      "是什么意思", "什么意思"]),
   ("example", ["例句", "例子", "造句", "用法", "举例", "造个句", "怎么用", "用例",
      "example", "usage", "sentence", "how to use", "in a sentence"]),
   ("phrase", ["短语", "搭配", "词组", "固定搭配", "常用搭配", "习惯搭配", "词伙", "动词搭配", "介词搭配",
      "phrase", "collocation", "expression", "idiom", "word partnership"]),
   ("pronunciation", ["发音", "读音", "怎么读", "念法", "咋读", "读法", "音标", "美式发音", "英式发音",
      "pronunciation", "read", "how to pronounce", "sound", "phonetic"]),
   ("etymology", ["词源", "词根", "词缀", "来源", "起源", "由来", "出自", "词源学",
      "etymology", "origin", "root", "word origin", "where does it come from"]),
   ("comparison", ["区别", "不同", "差异", "差别", "比较", "比对", "对比", "分辨", "区分",
      "difference", "compare", "comparison", "distinguish", "vs", " versus",
      "有什么区别", "有何不同"]),
   ("antonym", ["反义词", "相反词", "对立词", "antonym", "opposite", "reverse"]),
   ("usage_note", ["用法", "使用", "怎么用", "用法注意", "使用场景", "适用场合", "语法",
      "usage", "how to use", "grammar", "context", "in what situation"]),
   ("word_family", ["词性", "派生词", "相关词", "形容词", "副词", "名词", "动词", "变形",
      "part of speech", "derivative", "related words", "adjective", "adverb", "noun", "verb"]),
   ("formality", ["正式", "非正式", "口语", "书面语", "俚语", "委婉语", "正式程度",
      "formal", "informal", "slang", "colloquial", "register"])]

/-- `INTENT_EXAMPLES` (full lists; the recognizer uses the first five of
each). -/
def INTENT_EXAMPLES : List (String × List String) :=
  [("synonym", ["sensible的同义词有哪些", "beautiful的近义词", "与happy意思相近的词汇",
      "smart的同义词是什么", "列出important的同义词", "happy的相似词有哪些", "给出sad的替代词",
      "有什么词可以替换good", "intelligent的同类词", "big的同义词和近义词"]),
   ("definition", ["sensible的定义是什么", "explain的意思", "什么是metaphor",
      "clarify这个单词什么意思", "给一下comprehensive的定义", "sensible的释义有哪些",
      "ambiguity是什么意思", "什么叫paradox", "ephemeral的含义", "resilient什么意思",
      "翻译一下serendipity", "这个词啥意思"]),
   ("example", ["sensible的用法例句", "用demonstrate造个句子", "illustrate的例句有哪些",
      "展示一下utilize的用法", "provide an example of analyze", "给perseverance举个例句",
      "ambiguity怎么造句", "用这个词造个句", "举几个mitigate的例子", "usage的用法举例"]),
   ("phrase", ["sensible的常用搭配", "make的短语搭配", "take的常见词组", "break的固定搭配",
      "get的常用短语", "look的动词搭配", "give的介词搭配", "run的词组有哪些", "common的常用短语",
      "business的习惯搭配", "英语词伙查询"]),
   ("pronunciation", ["sensible怎么读", "pronunciation的发音", "schedule的美式发音",
      "读一下entrepreneur", "这个单词怎么念", "colonel咋读", "音标怎么读", "英式发音怎么读",
      "念一下这个单词", "读音是什么"]),
   ("etymology", ["sensible的词源", "etymology的词根", "photograph的词源学", "这个单词的来源",
      "词根词缀分析", "philosophy的起源", "biology的词根是什么", "这个词从哪里来的",
      "etymology的由来", "单词历史起源"]),
   ("comparison", ["sensible和sensitive的区别", "affect和effect的不同", "compare和contrast的区别",
      "economic和economical的差异", "这两个词有什么不同", "big和large的区别在哪",
      "say和tell有何不同", "house和home差别", "compare对比compare to", "分辨这两个词"]),
   ("antonym", ["happy的反义词", "big的相反词是什么", "beautiful的对立词", "fast的反义词有哪些",
      "列出rich的反义词", "positive的相反词", "antonym of good", "light的反义词"]),
   ("usage_note", ["however的用法", "suggest怎么用", "这个单词使用注意", "recommend的语法",
      "在什么场合用这个词", "usage的用法说明", "使用场景有哪些", "语法规则是什么", "适用场合"]),
   ("word_family", ["beautiful的词性", "happy的派生词", "create的相关词", "名词形式是什么",
      "动词变形有哪些", "形容词形式", "副词怎么变", "词性变化", "related words"]),
   ("formality", ["kids是正式用语吗", "wanna的正式程度", "这个词正式吗", "口语表达有哪些",
      "书面语怎么说", "slang的意思", "正式场合用什么词", "informal的表达", "正式与非正式区别"])]

/-- The closed intent label set: the eleven table intents plus
`general`. -/
def IntentLabels : List String :=
  ["synonym", "definition", "example", "phrase", "pronunciation", "etymology",
   "comparison", "antonym", "usage_note", "word_family", "formality", "general"]

/-! ## The functions of `intent_recognizer.py` -/

/-- An intent-recognition result dict (`type`, `target_word`,
`confidence`, `method`; the `all_scores` breakdown of the combined result
is not modelled since nothing reads it).  The dict returned by
`_combine_intent_results` has no `method` key, modelled as `""`. -/
structure IR where
  type : String
  target_word : String
  confidence : ℚ
  method : String
deriving DecidableEq, Repr

/-- `intersection / union if union > 0 else 0.0` over two token sets. -/
def jaccardQ (w1 w2 : List String) : ℚ :=
  if (w1 ++ w2.filter (fun x => !w1.contains x)).length > 0 then
    ((w1.filter (fun x => w2.contains x)).length : ℚ) /
      ((w1 ++ w2.filter (fun x => !w1.contains x)).length : ℚ)
  else 0

/-- `_calculate_text_similarity`: token-set Jaccard similarity of the
lower-cased texts. -/
def calculate_text_similarity (t1 t2 : String) : ℚ :=
  if dedupKeepFirst (wordTokens (lowerStr t1)) = [] ∨
      dedupKeepFirst (wordTokens (lowerStr t2)) = [] then 0
  else jaccardQ (dedupKeepFirst (wordTokens (lowerStr t1)))
    (dedupKeepFirst (wordTokens (lowerStr t2)))

/-- The stop words of `_is_valid_target` (a Python `set`; only membership
tests are performed, so the iteration order is irrelevant). -/
def valid_stop_words : List String :=
  ["什么", "哪些", "怎么", "如何", "为什么", "为何", "哪个", "哪", "什么是",
   "what", "which", "how", "why", "when", "where", "who",
   "有没有", "有什么", "是否", "可以", "能否"]

/-- `_is_valid_target` from `intent_recognizer.py`. -/
def is_valid_target (candidate query : String) : Bool :=
  if candidate = "" then false
  else
    let cand := stripWS candidate
    if cand.length = 1 && !(strIsUpper cand) then false
    else if cand.length = 0 then false
    else
      let low := lowerStr cand
      if valid_stop_words.any (fun sw => strIn sw low) then false
      else if (wsSplit cand).length > 3 then false
      else if query ≠ "" && strIn cand query &&
          !(["什么", "有什么", "有没有", "?", "？"].any (fun sw => strIn sw cand)) then true
      else if cand.data.any isCJKChar then decide (2 ≤ cand.length)
      else if cand.data.any isAsciiAlpha then decide (2 ≤ (cand.data.filter isAsciiAlpha).length)
      else false

/-- The prefix alternatives of `_clean_chinese_candidate`
(`^(?:有|有没有|什么|…)`), in alternation order: Python tries them left to
right, so `有` shadows `有没有` and `什么` shadows `什么是`. -/
def cleanPrefixList : List String :=
  ["有", "有没有", "什么", "哪些", "哪个", "哪", "是否", "能否", "可以", "有什么", "是什么", "什么是"]

/-- The punctuation class `[，,。；;：:]` following a stripped prefix. -/
def cleanPrefixPunct : List Char := ['，', ',', '。', '；', ';', '：', ':']

/-- The trailing class `[？?。.！!，,；;]` stripped from the end. -/
def cleanSuffixPunct : List Char := ['？', '?', '。', '.', '！', '!', '，', ',', '；', ';']

/-- `_clean_chinese_candidate`. -/
def clean_chinese_candidate (word : String) : String :=
  if word = "" then ""
  else
    let w1 := stripWS word
    let w2 : String :=
      match cleanPrefixList.find? (fun p => listPre p.data w1.data) with
      | some p =>
          ⟨(w1.data.drop p.length).dropWhile
            (fun c => cleanPrefixPunct.contains c || isSpaceChar c)⟩
      | none => w1
    let w3 : String :=
      ⟨(w2.data.reverse.dropWhile
          (fun c => cleanSuffixPunct.contains c || isSpaceChar c)).reverse⟩
    stripWS w3

/-- The stop-word set of `_select_best_chinese_target`. -/
def chinese_stop_words : List String :=
  ["什么", "哪些", "怎么", "如何", "为什么", "为何", "哪个", "哪", "什么是",
   "这个", "那个", "这些", "那些", "有没有", "是否", "可以", "能够", "有", "是什么"]

/-- The generic meta-words penalised by `_select_best_chinese_target`. -/
def common_words : List String := ["意思", "解释", "查询", "搜索", "查找", "帮助"]

/-- The contextual cue patterns of `_select_best_chinese_target`
(`word的同义词`, `word的定义`, `查询word`, `搜索word`), searched
case-insensitively. -/
def contextMatchCh (word query : String) : Bool :=
  strInCI (word ++ "的同义词") query || strInCI (word ++ "的定义") query ||
  strInCI ("查询" ++ word) query || strInCI ("搜索" ++ word) query

/-- `_select_best_chinese_target`. -/
def select_best_chinese_target (chinese_words : List String) (query : String) : String :=
  if chinese_words = [] then ""
  else
    let cleaned := chinese_words.filterMap (fun word =>
      let w := clean_chinese_candidate word
      if w = "" then none
      else if chinese_stop_words.any (fun sw => sw = w) then none
      else if ["什么", "有没有", "有什么", "是否", "能否", "可以"].any
          (fun p => listPre p.data w.data) then none
      else some w)
    if cleaned = [] then
      match firstSome chinese_words (fun w =>
        let w2 := clean_chinese_candidate w
        if w2 ≠ "" && !(chinese_stop_words.contains w2) then some w2 else none) with
      | some w2 => w2
      | none => chinese_words.headD ""
    else
      let qlen : ℕ := if query = "" then 1 else query.length
      let scored := cleaned.map (fun word =>
        let wl := word.length
        let s1 : ℚ := if 2 ≤ wl ∧ wl ≤ 4 then 2 else if wl = 1 then -1 else 0
        let s2 : ℚ :=
          match (if query = "" then none else findSub word.data query.data) with
          | some p => s1 + max 0 (1 - (p : ℚ) / (max 1 qlen : ℕ)) * 3
          | none => s1
        let s3 : ℚ := if contextMatchCh word query then s2 + 3 else s2
        let s4 : ℚ := if common_words.contains word then s3 - 2 else s3
        (word, s4))
      match maxByVal scored with
      | some best => if best.2 > -1 then best.1 else cleaned.headD ""
      | none => cleaned.headD ""

/-- The function-word set of `_select_best_english_target`. -/
def common_function_words : List String :=
  ["the", "a", "an", "and", "or", "but", "in", "on", "at", "to",
   "for", "of", "with", "by", "as", "is", "are", "was", "were",
   "this", "that", "these", "those", "have", "has", "had"]

/-- The contextual cue patterns of `_select_best_english_target`
(`of\s+word`, quoted occurrences), searched case-insensitively. -/
def contextMatchEn (word query : String) : Bool :=
  (reSearch (.cat (reStrCI "of") (.cat wsPlus (reStrCI word))) query).isSome ||
  strInCI (⟨apos :: word.data ++ [apos]⟩ : String) query ||
  strInCI ("\"" ++ word ++ "\"") query

/-- `_select_best_english_target`. -/
def select_best_english_target (words : List String) (query : String) : String :=
  if words = [] then ""
  else
    let scored := words.map (fun word =>
      let alphaLen := (word.data.filter isAsciiAlpha).length
      let s1 : ℚ := if 3 ≤ alphaLen ∧ alphaLen ≤ 30 then 2 else 0
      let s2 : ℚ :=
        match (if query = "" then none
          else findSub (lowerStr word).data (lowerStr query).data) with
        | some p => s1 + max 0 (1 - (p : ℚ) / (max 1 query.length : ℕ)) * 3
        | none => s1
      let s3 : ℚ :=
        if isUpperChar (word.data.headD 'a') && !(strIsUpper word) then s2 + 1 else s2
      let s4 : ℚ :=
        if !(common_function_words.contains (lowerStr word)) then s3 + 3 else s3
      let s5 : ℚ := if contextMatchEn word query then s4 + 2 else s4
      (word, s5))
    match maxByVal scored with
    | some best => if best.2 ≥ 0 then best.1 else ""
    | none => words.headD ""

/-- The removal patterns of `_extract_core_concept` (deleted globally,
case-insensitively, in this order). -/
def remove_patterns : List String :=
  ["什么是", "哪些是", "怎么", "如何", "为什么", "为何",
   "what are", "what is", "how to", "why", "which"]

/-- `_extract_core_concept`. -/
def extract_core_concept (query : String) : String :=
  let cleaned := remove_patterns.foldl (fun q pat => removeAllCI pat q) query
  let chinese_words := findallWhole reCJK26 cleaned
  if chinese_words ≠ [] then select_best_chinese_target chinese_words cleaned
  else
    let english_words := findallWhole reEngCore cleaned
    if english_words ≠ [] then select_best_english_target english_words cleaned
    else
      match wsSplit (stripWS cleaned) with
      | [] => ""
      | first_word :: _ => if is_valid_target first_word query then first_word else ""

/-- Stage 1 of `_extract_target_word`: quoted spans, validated. -/
def quotedTarget (query : String) : Option String :=
  firstSome quotedPatterns (fun re =>
    match reSearch re query with
    | some m =>
        let candidate := stripWS ((capGroup query.data m 1).getD "")
        if is_valid_target candidate query then some candidate else none
    | none => none)

/-- Stage 2 of `_extract_target_word`: best English token, validated. -/
def englishTarget (query : String) : Option String :=
  let english_words := findallG1 reEngToken query
  if english_words ≠ [] then
    let tc := select_best_english_target english_words query
    if tc ≠ "" && is_valid_target tc query then some tc else none
  else none

/-- Stage 3 of `_extract_target_word`: the Chinese patterns, cleaned and
validated. -/
def chineseTarget (query : String) : Option String :=
  firstSome chinesePatterns (fun pre =>
    firstSome (findall pre.1 query) (fun m =>
      firstSome (groupsList query.data m pre.2) (fun g =>
        let candidate := clean_chinese_candidate (stripWS g)
        if candidate ≠ "" && is_valid_target candidate query then some candidate
        else none)))

/-- `_extract_target_word`: quoted spans, then English tokens, then the
Chinese patterns (every early return is guarded by `_is_valid_target`),
and finally the core-concept fallback, which is not re-validated. -/
def extract_target_word (query : String) : String :=
  if query = "" then ""
  else
    match quotedTarget query with
    | some c => c
    | none =>
        match englishTarget query with
        | some t => t
        | none =>
            match chineseTarget query with
            | some c => c
            | none => extract_core_concept query

/-- The reverse-group-scan of `_pattern_based_recognition`: clean each
falsy-skipped group and validate it. -/
def patternGroupTarget (query : String) (groups : List String) : Option String :=
  firstSome groups.reverse (fun g =>
    if g = "" then none
    else
      let gClean := stripWS g
      let candidateClean :=
        if gClean.data.any isAsciiAlpha then gClean
        else clean_chinese_candidate gClean
      if is_valid_target candidateClean query then some candidateClean else none)

/-- One intent row of `_pattern_based_recognition`: the first pattern of
the row that matches yields a validated group target (confidence 0.75) or
the `_extract_target_word` fallback (confidence 0.6). -/
def patternHit (query : String) (entry : String × List (RE × ℕ)) : Option IR :=
  firstSome entry.2 (fun pre =>
    match reSearch pre.1 query with
    | none => none
    | some m =>
        match patternGroupTarget query (groupsList query.data m pre.2) with
        | some cand => some (⟨entry.1, cand, 3/4, "pattern"⟩ : IR)
        | none =>
            let fallback := extract_target_word query
            if fallback ≠ "" then some (⟨entry.1, fallback, 3/5, "pattern"⟩ : IR)
            else none)

/-- `_pattern_based_recognition`.  No pattern defines a named group
`target`, so the `match.groupdict()` branch of the source is dead code and
omitted. -/
def pattern_based_recognition (query : String) : IR :=
  match firstSome patternsTable (patternHit query) with
  | some r => r
  | none => ⟨"general", extract_target_word query, 3/10, "pattern"⟩

/-- Python `max(scores.values()) if scores else 1`. -/
def maxVals : List (String × ℚ) → ℚ
  | [] => 1
  | x :: t => t.foldl (fun b y => if y.2 > b then y.2 else b) x.2

/-- The raw per-intent hit counts of `_keyword_based_recognition`. -/
def keywordScores (query : String) : List (String × ℚ) :=
  INTENT_KEYWORDS.map (fun p =>
    (p.1, ((p.2.filter (fun kw => strIn kw query)).length : ℚ)))

/-- The hit counts normalised by the maximal count (`max_score` in the
source; `maxVals` returns 1 on the empty dict, matching `else 1`). -/
def keywordNormalized (query : String) : List (String × ℚ) :=
  (keywordScores query).map (fun p =>
    (p.1, if maxVals (keywordScores query) > 0
      then p.2 / maxVals (keywordScores query) else 0))

/-- `IntentRecognizer._keyword_based_recognition`: count keyword hits per
intent, normalise by the maximum count, return the first-maximal intent. -/
def keyword_based_recognition (query : String) : IR :=
  let best := (maxByVal (keywordNormalized query)).getD ("general", 0)
  ⟨best.1, extract_target_word query, best.2, "keyword"⟩

/-- The per-intent maximal Jaccard similarities of
`_semantic_similarity_recognition` (first five examples of each intent). -/
def semanticScores (query : String) : List (String × ℚ) :=
  INTENT_EXAMPLES.map (fun p =>
    (p.1, maxQ ((p.2.take 5).map (fun ex => calculate_text_similarity query ex))))

/-- `IntentRecognizer._semantic_similarity_recognition`: maximal Jaccard
similarity to the first five examples of each intent. -/
def semantic_similarity_recognition (query : String) : IR :=
  let best := (maxByVal (semanticScores query)).getD ("general", 0)
  ⟨best.1, extract_target_word query, best.2, "semantic"⟩

/-- The method weights of `_combine_intent_results`
(`keyword` 0.4, `semantic` 0.4, `pattern` 0.2, default 0.1). -/
def methodWeight (m : String) : ℚ :=
  if m = "keyword" then 2/5
  else if m = "semantic" then 2/5
  else if m = "pattern" then 1/5
  else 1/10

/-- `intent_scores.setdefault(t, 0.0); intent_scores[t] += v` on the
insertion-ordered dict. -/
def addScore : List (String × ℚ) → String → ℚ → List (String × ℚ)
  | [], k, v => [(k, v)]
  | p :: t, k, v => if p.1 = k then (p.1, p.2 + v) :: t else p :: addScore t k v

/-- The majority vote over the proposed target words:
`max(set(ts), key=ts.count)`.  Python's set iteration order is
unspecified; it is determinised here to first-seen order (every use in the
settled claims is either order-independent or has all proposals equal). -/
def majorityTarget (ts : List String) : String :=
  match maxByVal ((dedupKeepFirst ts).map (fun t =>
    (t, (ts.filter (fun x => x = t)).length))) with
  | some best => best.1
  | none => ""

/-- `_combine_intent_results`. -/
def combine_intent_results (rs : List IR) : IR :=
  let intentScores := rs.foldl
    (fun acc r => addScore acc r.type (r.confidence * methodWeight r.method)) []
  match maxByVal intentScores with
  | some best =>
      let targetWords := rs.filterMap (fun r =>
        if r.target_word ≠ "" then some r.target_word else none)
      ⟨best.1, majorityTarget targetWords, best.2, ""⟩
  | none => ⟨"general", "", 1/10, ""⟩

/-- `IntentRecognizer.recognize_intent`. -/
def recognize_intent (query : String) : IR :=
  if query = "" then ⟨"general", "", 0, "keyword"⟩
  else
    let queryLower := lowerStr query
    let keywordIntent := keyword_based_recognition queryLower
    if keywordIntent.confidence > 4/5 then
      let t := extract_target_word query
      { keywordIntent with
        target_word := if t ≠ "" then t else keywordIntent.target_word }
    else
      let semanticIntent := semantic_similarity_recognition queryLower
      let patternIntent := pattern_based_recognition query
      let combined := combine_intent_results [keywordIntent, semanticIntent, patternIntent]
      { combined with
        target_word := if combined.target_word ≠ "" then combined.target_word
          else extract_target_word query }

/-- The sum of the values of an intent-score dict (specification helper
for bounding `max(intent_scores.values())`). -/
def sumVals : List (String × ℚ) → ℚ
  | [] => 0
  | p :: t => p.2 + sumVals t

/-- The combined result built on the slow path of `recognize_intent`
(specification helper naming the three-signal combination). -/
def combinedIntent (query : String) : IR :=
  combine_intent_results [keyword_based_recognition (lowerStr query),
    semantic_similarity_recognition (lowerStr query),
    pattern_based_recognition query]

/-! ## Lemmas: dict updates and the per-strategy fold -/

theorem setAssocQ_fresh (l : List (String × ℚ)) (k : String) (v : ℚ)
    (h : k ∉ l.map Prod.fst) : setAssocQ l k v = l ++ [(k, v)] := by
  induction l with
  | nil => rfl
  | cons p t ih =>
      simp only [List.map_cons, List.mem_cons, not_or] at h
      simp only [setAssocQ]
      rw [if_neg (fun hp => h.1 hp.symm), ih h.2, List.cons_append]

theorem setAssocQ_keys_fresh (l : List (String × ℚ)) (k : String) (v : ℚ)
    (h : k ∉ l.map Prod.fst) :
    (setAssocQ l k v).map Prod.fst = l.map Prod.fst ++ [k] := by
  rw [setAssocQ_fresh l k v h, List.map_append]
  rfl

theorem entryScores_upsertDoc (s : String) (r : ℕ) (aw : ℚ) (d : Doc)
    (acc : List Entry) (i : ℕ) :
    entryScores (upsertDoc s r aw d acc) i =
      if i = d.id then
        some (setAssocQ ((entryScores acc d.id).getD []) s (1 / ((r : ℚ) + 60) * aw))
      else entryScores acc i := by
  induction acc with
  | nil =>
      by_cases hi : i = d.id
      · subst hi; simp [upsertDoc, entryScores, setAssocQ]
      · have hdi : ¬ (d.id = i) := fun h => hi h.symm
        simp [upsertDoc, entryScores, hi, hdi]
  | cons e t ih =>
      by_cases he : e.id = d.id
      · by_cases hi : i = d.id
        · subst hi
          simp [upsertDoc, he, entryScores]
        · have hdi : ¬ (d.id = i) := fun h => hi h.symm
          have hne : ¬ (e.id = i) := fun h => hi (h.symm.trans he)
          simp [upsertDoc, he, entryScores, hi, hne, hdi]
      · by_cases hei : e.id = i
        · have hi : ¬ (i = d.id) := fun h => he (hei.trans h)
          simp [upsertDoc, he, entryScores, hi, hei]
        · simp [upsertDoc, he, entryScores, hei, ih]

theorem upsertDoc_ids (s : String) (r : ℕ) (aw : ℚ) (d : Doc) (acc : List Entry) :
    (upsertDoc s r aw d acc).map Entry.id =
      if d.id ∈ acc.map Entry.id then acc.map Entry.id
      else acc.map Entry.id ++ [d.id] := by
  induction acc with
  | nil => simp [upsertDoc]
  | cons e t ih =>
      by_cases he : e.id = d.id
      · simp [upsertDoc, he, List.mem_cons]
      · simp only [upsertDoc, if_neg he, List.map_cons, ih, List.mem_cons]
        by_cases hm : d.id ∈ t.map Entry.id
        · rw [if_pos hm, if_pos (Or.inr hm)]
        · rw [if_neg hm, if_neg (fun hc => hc.elim (fun h1 => he h1.symm) hm)]
          simp

theorem upsertDoc_ids_mem (s : String) (r : ℕ) (aw : ℚ) (d : Doc) (acc : List Entry)
    (i : ℕ) :
    i ∈ (upsertDoc s r aw d acc).map Entry.id ↔ i ∈ acc.map Entry.id ∨ i = d.id := by
  rw [upsertDoc_ids]
  by_cases hm : d.id ∈ acc.map Entry.id
  · rw [if_pos hm]
    exact ⟨Or.inl, fun h => h.elim id (fun h => h ▸ hm)⟩
  · rw [if_neg hm]
    simp [List.mem_append]

theorem upsertDoc_nodup (s : String) (r : ℕ) (aw : ℚ) (d : Doc) (acc : List Entry)
    (h : (acc.map Entry.id).Nodup) :
    ((upsertDoc s r aw d acc).map Entry.id).Nodup := by
  rw [upsertDoc_ids]
  by_cases hm : d.id ∈ acc.map Entry.id
  · rw [if_pos hm]; exact h
  · rw [if_neg hm]
    rw [List.nodup_append]
    exact ⟨h, List.nodup_singleton _, fun x hx hx' => hm ((List.mem_singleton.mp hx') ▸ hx)⟩

theorem upsertDoc_origin (s : String) (r : ℕ) (aw : ℚ) (d : Doc) (acc : List Entry) :
    ∀ e' ∈ upsertDoc s r aw d acc,
      (∃ e ∈ acc, e'.doc = e.doc ∧ e'.id = e.id) ∨ (e'.doc = d ∧ e'.id = d.id) := by
  induction acc with
  | nil =>
      intro e' he'
      simp only [upsertDoc, List.mem_singleton] at he'
      subst he'
      exact Or.inr ⟨rfl, rfl⟩
  | cons e t ih =>
      intro e' he'
      by_cases he : e.id = d.id
      · simp only [upsertDoc, if_pos he, List.mem_cons] at he'
        rcases he' with he' | he'
        · subst he'; exact Or.inl ⟨e, List.mem_cons_self e t, rfl, rfl⟩
        · exact Or.inl ⟨e', List.mem_cons_of_mem e he', rfl, rfl⟩
      · simp only [upsertDoc, if_neg he, List.mem_cons] at he'
        rcases he' with he' | he'
        · subst he'; exact Or.inl ⟨e', List.mem_cons_self e' t, rfl, rfl⟩
        · rcases ih e' he' with ⟨e₀, he₀, h1, h2⟩ | h
          · exact Or.inl ⟨e₀, List.mem_cons_of_mem e he₀, h1, h2⟩
          · exact Or.inr h

theorem processFrom_scores_absent (s : String) (aw : ℚ) (docs : List Doc) :
    ∀ (n : ℕ) (acc : List Entry) (i : ℕ), i ∉ docs.map Doc.id →
      entryScores (processFrom s aw docs n acc) i = entryScores acc i := by
  induction docs with
  | nil => intro n acc i _; rfl
  | cons d t ih =>
      intro n acc i hi
      simp only [List.map_cons, List.mem_cons, not_or] at hi
      rw [processFrom, ih _ _ _ hi.2, entryScores_upsertDoc, if_neg hi.1]

theorem processFrom_scores_mem (s : String) (aw : ℚ) :
    ∀ (docs : List Doc) (n : ℕ) (acc : List Entry) (i : ℕ),
      (docs.map Doc.id).Nodup → i ∈ docs.map Doc.id →
      entryScores (processFrom s aw docs n acc) i =
        some (setAssocQ ((entryScores acc i).getD []) s
          (1 / ((n : ℚ) + ((docs.map Doc.id).indexOf i : ℚ) + 60) * aw)) := by
  intro docs
  induction docs with
  | nil => intro n acc i _ hi; simp at hi
  | cons d t ih =>
      intro n acc i hnd hi
      simp only [List.map_cons, List.nodup_cons] at hnd
      simp only [List.map_cons, List.mem_cons] at hi
      rw [processFrom]
      rcases hi with hi | hi
      · have habs : i ∉ t.map Doc.id := hi ▸ hnd.1
        rw [processFrom_scores_absent s aw t _ _ _ habs,
          entryScores_upsertDoc, if_pos hi]
        have hidx : (List.map Doc.id (d :: t)).indexOf i = 0 := by
          rw [List.map_cons, hi, List.indexOf_cons_self]
        rw [List.map_cons] at hidx ⊢
        rw [hidx, hi]
        norm_num
      · have hne : i ≠ d.id := fun h => hnd.1 (h ▸ hi)
        rw [ih (n + 1) (upsertDoc s n aw d acc) i hnd.2 hi,
          entryScores_upsertDoc, if_neg hne]
        have hval : 1 / (((n : ℚ) + 1) + ((t.map Doc.id).indexOf i : ℚ) + 60) * aw =
            1 / ((n : ℚ) + (((d.id :: t.map Doc.id).indexOf i : ℚ)) + 60) * aw := by
          rw [List.indexOf_cons_ne _ (Ne.symm hne)]
          push_cast
          ring_nf
        rw [List.map_cons]
        rw [← hval]
        norm_num

theorem processFrom_ids_mem (s : String) (aw : ℚ) :
    ∀ (docs : List Doc) (n : ℕ) (acc : List Entry) (i : ℕ),
      i ∈ (processFrom s aw docs n acc).map Entry.id ↔
        i ∈ acc.map Entry.id ∨ i ∈ docs.map Doc.id := by
  intro docs
  induction docs with
  | nil => intro n acc i; simp [processFrom]
  | cons d t ih =>
      intro n acc i
      rw [processFrom, ih, upsertDoc_ids_mem]
      simp only [List.map_cons, List.mem_cons]
      tauto

theorem processFrom_nodup (s : String) (aw : ℚ) :
    ∀ (docs : List Doc) (n : ℕ) (acc : List Entry),
      (acc.map Entry.id).Nodup → ((processFrom s aw docs n acc).map Entry.id).Nodup := by
  intro docs
  induction docs with
  | nil => intro n acc h; exact h
  | cons d t ih =>
      intro n acc h
      rw [processFrom]
      exact ih _ _ (upsertDoc_nodup s n aw d acc h)

theorem processFrom_origin (s : String) (aw : ℚ) :
    ∀ (docs : List Doc) (n : ℕ) (acc : List Entry) (e' : Entry),
      e' ∈ processFrom s aw docs n acc →
      (∃ e ∈ acc, e'.doc = e.doc ∧ e'.id = e.id) ∨ (e'.doc ∈ docs ∧ e'.id = e'.doc.id) := by
  intro docs
  induction docs with
  | nil => intro n acc e' he'; exact Or.inl ⟨e', he', rfl, rfl⟩
  | cons d t ih =>
      intro n acc e' he'
      rw [processFrom] at he'
      rcases ih _ _ _ he' with ⟨e, he, h1, h2⟩ | ⟨h1, h2⟩
      · rcases upsertDoc_origin s n aw d acc e he with ⟨e₀, he₀, g1, g2⟩ | ⟨g1, g2⟩
        · exact Or.inl ⟨e₀, he₀, h1.trans g1, h2.trans g2⟩
        · refine Or.inr ⟨h1.trans g1 ▸ List.mem_cons_self d t, ?_⟩
          rw [h2, g2, h1, g1]
      · exact Or.inr ⟨List.mem_cons_of_mem d h1, h2⟩

/-! ## Lemmas: folding all active strategies -/

theorem occursIn_cons (p : String × List Doc) (T : List (String × List Doc)) (i : ℕ) :
    occursIn (p :: T) i ↔ i ∈ p.2.map Doc.id ∨ occursIn T i := by
  simp [occursIn, List.mem_cons, or_and_right, exists_or]

theorem occursIn_nil (i : ℕ) : ¬ occursIn [] i := by
  simp [occursIn]

theorem listFold_ids_mem (w : String → ℚ) (intent : Intent) :
    ∀ (L : List (String × List Doc)) (acc : List Entry) (i : ℕ),
      i ∈ (listFold w intent L acc).map Entry.id ↔
        i ∈ acc.map Entry.id ∨ occursIn L i := by
  intro L
  induction L with
  | nil => intro acc i; simp [listFold, occursIn]
  | cons p T ih =>
      intro acc i
      rw [listFold, ih, process_strategy, processFrom_ids_mem, occursIn_cons]
      tauto

theorem listFold_nodup (w : String → ℚ) (intent : Intent) :
    ∀ (L : List (String × List Doc)) (acc : List Entry),
      (acc.map Entry.id).Nodup → ((listFold w intent L acc).map Entry.id).Nodup := by
  intro L
  induction L with
  | nil => intro acc h; exact h
  | cons p T ih =>
      intro acc h
      rw [listFold]
      exact ih _ (processFrom_nodup _ _ _ _ _ h)

theorem listFold_origin (w : String → ℚ) (intent : Intent) :
    ∀ (L : List (String × List Doc)) (acc : List Entry) (e' : Entry),
      e' ∈ listFold w intent L acc →
      (∃ e ∈ acc, e'.doc = e.doc ∧ e'.id = e.id) ∨
        (∃ p ∈ L, e'.doc ∈ p.2 ∧ e'.id = e'.doc.id) := by
  intro L
  induction L with
  | nil => intro acc e' he'; exact Or.inl ⟨e', he', rfl, rfl⟩
  | cons p T ih =>
      intro acc e' he'
      rw [listFold] at he'
      rcases ih _ _ he' with ⟨e, he, h1, h2⟩ | ⟨q, hq, h1, h2⟩
      · rcases processFrom_origin _ _ _ _ _ _ he with ⟨e₀, he₀, g1, g2⟩ | ⟨g1, g2⟩
        · exact Or.inl ⟨e₀, he₀, h1.trans g1, h2.trans g2⟩
        · refine Or.inr ⟨p, List.mem_cons_self p T, ?_, ?_⟩
          · rw [h1]; exact g1
          · rw [h2, g2, h1]
      · exact Or.inr ⟨q, List.mem_cons_of_mem p hq, h1, h2⟩

theorem listFold_scores (w : String → ℚ) (intent : Intent) :
    ∀ (L : List (String × List Doc)), (L.map Prod.fst).Nodup →
      (∀ p ∈ L, (p.2.map Doc.id).Nodup) →
      ∀ (acc : List Entry),
        (∀ i sc, entryScores acc i = some sc → ∀ k ∈ sc.map Prod.fst, k ∉ L.map Prod.fst) →
        ∀ i, entryScores (listFold w intent L acc) i =
          if occursIn L i ∨ (entryScores acc i).isSome then
            some ((entryScores acc i).getD [] ++ specScores w intent L i)
          else none := by
  intro L
  induction L with
  | nil =>
      intro _ _ acc _ i
      rw [listFold]
      simp only [specScores, List.filterMap_nil, List.append_nil]
      by_cases h : (entryScores acc i).isSome
      · rw [if_pos (Or.inr h)]
        cases hsc : entryScores acc i with
        | none => rw [hsc] at h; simp at h
        | some sc => simp
      · rw [if_neg]
        · cases hsc : entryScores acc i with
          | none => rfl
          | some sc => rw [hsc] at h; simp at h
        · rintro (ho | hs)
          · exact occursIn_nil i ho
          · exact h hs
  | cons p T ih =>
      intro hnames hdocs acc hkeys i
      have hnames' : ((p :: T).map Prod.fst).Nodup := hnames
      simp only [List.map_cons, List.nodup_cons] at hnames
      have hdp : (p.2.map Doc.id).Nodup := hdocs p (List.mem_cons_self p T)
      have hdT : ∀ q ∈ T, (q.2.map Doc.id).Nodup :=
        fun q hq => hdocs q (List.mem_cons_of_mem p hq)
      rw [listFold]
      set aw := adjust_strategy_weight_by_intent p.1 intent (w p.1) with haw
      set acc' := process_strategy p.1 aw p.2 acc with hacc'
      -- the fresh-key fact, for an arbitrary id
      have hfresh : ∀ j, j ∈ p.2.map Doc.id →
          p.1 ∉ ((entryScores acc j).getD []).map Prod.fst := by
        intro j _ hk
        cases hsc : entryScores acc j with
        | none => rw [hsc] at hk; simp at hk
        | some sc =>
            rw [hsc] at hk
            exact hkeys j sc hsc p.1 hk (by simp [List.map_cons, List.mem_cons])
      have hmem_scores : ∀ j, j ∈ p.2.map Doc.id →
          entryScores acc' j =
            some (((entryScores acc j).getD []) ++
              [(p.1, 1 / (((p.2.map Doc.id).indexOf j : ℚ) + 60) * aw)]) := by
        intro j hj
        rw [hacc', process_strategy, processFrom_scores_mem p.1 aw p.2 0 acc j hdp hj]
        rw [setAssocQ_fresh _ _ _ (hfresh j hj)]
        norm_num
      have habs_scores : ∀ j, j ∉ p.2.map Doc.id → entryScores acc' j = entryScores acc j := by
        intro j hj
        rw [hacc', process_strategy, processFrom_scores_absent p.1 aw p.2 0 acc j hj]
      have hkeys' : ∀ j sc, entryScores acc' j = some sc →
          ∀ k ∈ sc.map Prod.fst, k ∉ T.map Prod.fst := by
        intro j sc hsc k hk
        by_cases hj : j ∈ p.2.map Doc.id
        · rw [hmem_scores j hj] at hsc
          have hsc' := Option.some.inj hsc
          rw [← hsc', List.map_append, List.mem_append] at hk
          rcases hk with hk | hk
          · intro hkT
            cases hscacc : entryScores acc j with
            | none => rw [hscacc] at hk; simp at hk
            | some sc₀ =>
                rw [hscacc] at hk
                exact hkeys j sc₀ hscacc k hk
                  (by simp only [List.map_cons, List.mem_cons]; exact Or.inr hkT)
          · simp only [List.map_cons, List.map_nil, List.mem_singleton] at hk
            rw [hk]
            exact hnames.1
        · rw [habs_scores j hj] at hsc
          intro hkT
          exact hkeys j sc hsc k hk
            (by simp only [List.map_cons, List.mem_cons]; exact Or.inr hkT)
      rw [ih hnames.2 hdT acc' hkeys' i]
      by_cases hi : i ∈ p.2.map Doc.id
      · have h1 := hmem_scores i hi
        have hspec : specScores w intent (p :: T) i =
            (p.1, 1 / (((p.2.map Doc.id).indexOf i : ℚ) + 60) * aw) :: specScores w intent T i := by
          simp only [specScores, List.filterMap_cons, if_pos hi]
        rw [if_pos (Or.inr (by rw [h1]; rfl)), if_pos (Or.inl ⟨p, List.mem_cons_self p T, hi⟩)]
        rw [h1, hspec]
        simp [List.append_assoc]
      · have h1 := habs_scores i hi
        have hspec : specScores w intent (p :: T) i = specScores w intent T i := by
          simp only [specScores, List.filterMap_cons, if_neg hi]
        rw [h1, hspec]
        have hocc : occursIn (p :: T) i ↔ occursIn T i := by
          rw [occursIn_cons]
          simp [hi]
        have hc2 : (occursIn (p :: T) i ∨ (entryScores acc i).isSome = true) ↔
            (occursIn T i ∨ (entryScores acc i).isSome = true) := by rw [hocc]
        by_cases hc : occursIn T i ∨ (entryScores acc i).isSome = true
        · rw [if_pos hc, if_pos (hc2.mpr hc)]
        · rw [if_neg hc, if_neg (fun h => hc (hc2.mp h))]

/-! ## Lemmas: active strategy lists and the spec formulas -/

theorem strategyLists_mem (ar : List (String × List Doc)) :
    ∀ (st : List String), ∀ p ∈ strategyLists st ar,
      p.1 ∈ st ∧ lookupDocs ar p.1 = some p.2 ∧ p.2 ≠ [] := by
  intro st
  induction st with
  | nil => intro p hp; simp [strategyLists] at hp
  | cons s rest ih =>
      intro p hp
      simp only [strategyLists, List.filterMap_cons] at hp
      cases h : lookupDocs ar s with
      | none =>
          simp only [h] at hp
          rcases ih p hp with ⟨h1, h2, h3⟩
          exact ⟨List.mem_cons_of_mem s h1, h2, h3⟩
      | some docs =>
          simp only [h] at hp
          by_cases hd : docs = []
          · rw [if_pos hd] at hp
            rcases ih p hp with ⟨h1, h2, h3⟩
            exact ⟨List.mem_cons_of_mem s h1, h2, h3⟩
          · rw [if_neg hd] at hp
            rcases List.mem_cons.mp hp with rfl | hp'
            · exact ⟨List.mem_cons_self s rest, h, hd⟩
            · rcases ih p hp' with ⟨h1, h2, h3⟩
              exact ⟨List.mem_cons_of_mem s h1, h2, h3⟩

theorem strategyLists_names (ar : List (String × List Doc)) :
    ∀ (st : List String), ((strategyLists st ar).map Prod.fst).Sublist st := by
  intro st
  induction st with
  | nil => simp [strategyLists]
  | cons s rest ih =>
      simp only [strategyLists, List.filterMap_cons]
      cases h : lookupDocs ar s with
      | none => simp only [h]; exact ih.cons s
      | some docs =>
          simp only [h]
          by_cases hd : docs = []
          · rw [if_pos hd]; exact ih.cons s
          · rw [if_neg hd, List.map_cons]
            exact ih.cons₂ s

theorem strategyLists_of (ar : List (String × List Doc)) :
    ∀ (st : List String) (s : String) (docs : List Doc), s ∈ st →
      lookupDocs ar s = some docs → docs ≠ [] → (s, docs) ∈ strategyLists st ar := by
  intro st
  induction st with
  | nil => intro s docs h; simp at h
  | cons s₀ rest ih =>
      intro s docs hs hl hne
      simp only [strategyLists, List.filterMap_cons]
      rcases List.mem_cons.mp hs with rfl | hs'
      · simp only [hl, if_neg hne]
        exact List.mem_cons_self _ _
      · cases h : lookupDocs ar s₀ with
        | none => simp only [h]; exact ih s docs hs' hl hne
        | some docs₀ =>
            simp only [h]
            by_cases hd : docs₀ = []
            · rw [if_pos hd]; exact ih s docs hs' hl hne
            · rw [if_neg hd]
              exact List.mem_cons_of_mem _ (ih s docs hs' hl hne)

theorem ranked_results_eq (w : String → ℚ) (st : List String)
    (ar : List (String × List Doc)) (intent : Intent) :
    ranked_results w st ar intent = listFold w intent (strategyLists st ar) [] := by
  have aux : ∀ (st : List String) (acc : List Entry),
      st.foldl
        (fun acc s =>
          match lookupDocs ar s with
          | none => acc
          | some docs =>
              if docs = [] then acc
              else process_strategy s (adjust_strategy_weight_by_intent s intent (w s)) docs acc)
        acc
      = listFold w intent (strategyLists st ar) acc := by
    intro st
    induction st with
    | nil => intro acc; rfl
    | cons s rest ih =>
        intro acc
        rw [List.foldl_cons]
        simp only [strategyLists, List.filterMap_cons]
        cases h : lookupDocs ar s with
        | none => simp only [h]; exact ih acc
        | some docs =>
            by_cases hd : docs = []
            · simp only [h, if_pos hd]
              exact ih acc
            · simp only [h, if_neg hd]
              rw [listFold]
              exact ih _
  exact aux st []

theorem entryScores_some_mem :
    ∀ (l : List Entry) (i : ℕ) (sc : List (String × ℚ)),
      entryScores l i = some sc → ∃ e ∈ l, e.id = i ∧ e.scores = sc := by
  intro l
  induction l with
  | nil => intro i sc h; simp [entryScores] at h
  | cons e t ih =>
      intro i sc h
      rw [entryScores] at h
      by_cases he : e.id = i
      · rw [if_pos he] at h
        exact ⟨e, List.mem_cons_self e t, he, Option.some.inj h⟩
      · rw [if_neg he] at h
        rcases ih i sc h with ⟨e₀, h1, h2, h3⟩
        exact ⟨e₀, List.mem_cons_of_mem e h1, h2, h3⟩

theorem entryScores_of_mem :
    ∀ (l : List Entry), (l.map Entry.id).Nodup →
      ∀ e ∈ l, entryScores l e.id = some e.scores := by
  intro l
  induction l with
  | nil => intro _ e he; simp at he
  | cons f t ih =>
      intro hnd e he
      simp only [List.map_cons, List.nodup_cons] at hnd
      rcases List.mem_cons.mp he with rfl | he'
      · rw [entryScores, if_pos rfl]
      · have hne : f.id ≠ e.id := fun h => hnd.1 (h ▸ List.mem_map_of_mem Entry.id he')
        rw [entryScores, if_neg hne]
        exact ih hnd.2 e he'

theorem rrf_contributions_eq (w : String → ℚ) (ar : List (String × List Doc))
    (intent : Intent) (i : ℕ) :
    ∀ (st : List String),
      rrf_contributions w st ar intent i =
        (specScores w intent (strategyLists st ar) i).map Prod.snd := by
  intro st
  induction st with
  | nil => rfl
  | cons s rest ih =>
      simp only [rrf_contributions, strategyLists, specScores, List.filterMap_cons] at ih ⊢
      cases h : lookupDocs ar s with
      | none => simp only [h]; exact ih
      | some docs =>
          simp only [h]
          by_cases hd : docs = []
          · subst hd
            rw [if_pos rfl, if_neg (by simp)]
            exact ih
          · rw [if_neg hd]
            by_cases hi : i ∈ docs.map Doc.id
            · rw [if_pos hi]
              simp only [List.filterMap_cons, if_pos hi, List.map_cons]
              rw [ih]
            · rw [if_neg hi]
              simp only [List.filterMap_cons, if_neg hi]
              exact ih

theorem specScores_mem (w : String → ℚ) (intent : Intent) :
    ∀ (L : List (String × List Doc)) (i : ℕ) (x : String × ℚ),
      x ∈ specScores w intent L i →
      ∃ p ∈ L, i ∈ p.2.map Doc.id ∧
        x = (p.1, 1 / (((p.2.map Doc.id).indexOf i : ℚ) + 60) *
          adjust_strategy_weight_by_intent p.1 intent (w p.1)) := by
  intro L i x hx
  rw [specScores, List.mem_filterMap] at hx
  rcases hx with ⟨p, hp, hpx⟩
  by_cases hi : i ∈ p.2.map Doc.id
  · rw [if_pos hi] at hpx
    exact ⟨p, hp, hi, (Option.some.inj hpx).symm⟩
  · rw [if_neg hi] at hpx
    cases hpx

theorem lookupQ_specScores (w : String → ℚ) (intent : Intent) :
    ∀ (L : List (String × List Doc)), (L.map Prod.fst).Nodup →
      ∀ (s : String) (docs : List Doc) (i : ℕ), (s, docs) ∈ L → i ∈ docs.map Doc.id →
      lookupQ (specScores w intent L i) s =
        some (1 / (((docs.map Doc.id).indexOf i : ℚ) + 60) *
          adjust_strategy_weight_by_intent s intent (w s)) := by
  intro L
  induction L with
  | nil => intro _ s docs i h; simp at h
  | cons q T ih =>
      intro hn s docs i hmem hi
      simp only [List.map_cons, List.nodup_cons] at hn
      rcases List.mem_cons.mp hmem with heq | hmem'
      · subst heq
        simp only [specScores, List.filterMap_cons, if_pos hi]
        rw [lookupQ, if_pos rfl]
      · have hsT : s ∈ T.map Prod.fst := by
          have : Prod.fst (s, docs) ∈ T.map Prod.fst := List.mem_map_of_mem Prod.fst hmem'
          exact this
        have hqs : q.1 ≠ s := fun h => hn.1 (h ▸ hsT)
        simp only [specScores, List.filterMap_cons]
        by_cases hqi : i ∈ q.2.map Doc.id
        · rw [if_pos hqi, lookupQ, if_neg hqs]
          exact ih hn.2 s docs i hmem' hi
        · rw [if_neg hqi]
          exact ih hn.2 s docs i hmem' hi

theorem sum_pos_of_mem_nonneg :
    ∀ (l : List ℚ), (∀ x ∈ l, 0 ≤ x) → ∀ x ∈ l, 0 < x → 0 < l.sum := by
  intro l
  induction l with
  | nil => intro _ x hx; simp at hx
  | cons a t ih =>
      intro h0 x hx hxp
      rw [List.sum_cons]
      rcases List.mem_cons.mp hx with rfl | hx'
      · exact add_pos_of_pos_of_nonneg hxp
          (List.sum_nonneg (fun y hy => h0 y (List.mem_cons_of_mem x hy)))
      · exact add_pos_of_nonneg_of_pos (h0 a (List.mem_cons_self a t))
          (ih (fun y hy => h0 y (List.mem_cons_of_mem a hy)) x hx' hxp)

theorem ranked_results_inv (w : String → ℚ) (st : List String)
    (ar : List (String × List Doc)) (intent : Intent) :
    ∀ e ∈ ranked_results w st ar intent,
      e.doc.id = e.id ∧ ∃ p ∈ strategyLists st ar, e.doc ∈ p.2 := by
  intro e he
  rw [ranked_results_eq] at he
  rcases listFold_origin w intent _ _ _ he with ⟨e₀, he₀, _⟩ | ⟨p, hp, h1, h2⟩
  · simp at he₀
  · exact ⟨h2.symm, p, hp, h1⟩

theorem ranked_results_nodup (w : String → ℚ) (st : List String)
    (ar : List (String × List Doc)) (intent : Intent) :
    ((ranked_results w st ar intent).map Entry.id).Nodup := by
  rw [ranked_results_eq]
  exact listFold_nodup w intent _ [] (by simp)

theorem ranked_results_scores (w : String → ℚ) (st : List String)
    (ar : List (String × List Doc)) (intent : Intent)
    (hnds : st.Nodup)
    (hndl : ∀ s docs, lookupDocs ar s = some docs → (docs.map Doc.id).Nodup) :
    ∀ i, entryScores (ranked_results w st ar intent) i =
      if occursIn (strategyLists st ar) i then
        some (specScores w intent (strategyLists st ar) i)
      else none := by
  intro i
  rw [ranked_results_eq]
  have hnames : ((strategyLists st ar).map Prod.fst).Nodup :=
    (strategyLists_names ar st).nodup hnds
  have hdocs : ∀ p ∈ strategyLists st ar, (p.2.map Doc.id).Nodup := by
    intro p hp
    rcases strategyLists_mem ar st p hp with ⟨_, h2, _⟩
    exact hndl p.1 p.2 h2
  rw [listFold_scores w intent _ hnames hdocs [] (by intro i sc h; simp [entryScores] at h) i]
  simp only [entryScores, Option.isSome_none, Option.getD_none, List.nil_append]
  by_cases hc : occursIn (strategyLists st ar) i
  · rw [if_pos (Or.inl hc), if_pos hc]
  · rw [if_neg (by simp [hc]), if_neg hc]

/-! ## Lemmas: stability of the final sort, monotonicity, misc -/

theorem lookupQ_mem : ∀ (l : List (String × ℚ)) (k : String) (v : ℚ),
    lookupQ l k = some v → (k, v) ∈ l := by
  intro l
  induction l with
  | nil => intro k v h; simp [lookupQ] at h
  | cons p t ih =>
      intro k v h
      rw [lookupQ] at h
      by_cases hp : p.1 = k
      · rw [if_pos hp] at h
        have : p = (k, v) := by
          rcases p with ⟨p1, p2⟩
          simp only at hp
          simp only [Option.some.injEq] at h
          rw [hp, h]
      
        rw [← this]
        exact List.mem_cons_self p t
      · rw [if_neg hp] at h
        exact List.mem_cons_of_mem p (ih k v h)

theorem lookupDocs_mem : ∀ (l : List (String × List Doc)) (k : String) (v : List Doc),
    lookupDocs l k = some v → (k, v) ∈ l := by
  intro l
  induction l with
  | nil => intro k v h; simp [lookupDocs] at h
  | cons p t ih =>
      intro k v h
      rw [lookupDocs] at h
      by_cases hp : p.1 = k
      · rw [if_pos hp] at h
        have : p = (k, v) := by
          rcases p with ⟨p1, p2⟩
          simp only at hp
          simp only [Option.some.injEq] at h
          rw [hp, h]
        rw [← this]
        exact List.mem_cons_self p t
      · rw [if_neg hp] at h
        exact List.mem_cons_of_mem p (ih k v h)

theorem filter_orderedInsert (a : FusedDoc) (l : List FusedDoc) (q : ℚ) :
    (List.orderedInsert fusedOrder a l).filter (fun fd => fd.fusion_score = q) =
      if a.fusion_score = q then a :: l.filter (fun fd => fd.fusion_score = q)
      else l.filter (fun fd => fd.fusion_score = q) := by
  rw [List.orderedInsert_eq_take_drop, List.filter_append]
  by_cases ha : a.fusion_score = q
  · have htw : (List.takeWhile (fun b => decide ¬ fusedOrder a b) l).filter
        (fun fd => decide (fd.fusion_score = q)) = [] := by
      rw [List.filter_eq_nil_iff]
      intro b hb
      have h1 := List.mem_takeWhile_imp hb
      simp only [decide_eq_true_eq] at h1 ⊢
      intro hbq
      exact h1 (le_of_eq (by rw [hbq, ha]))
    rw [htw, if_pos ha, List.filter_cons, if_pos (by simp [ha]), List.nil_append]
    congr 1
    conv_rhs => rw [← List.takeWhile_append_dropWhile (fun b => decide ¬ fusedOrder a b) l]
    rw [List.filter_append, htw, List.nil_append]
  · rw [if_neg ha, List.filter_cons, if_neg (by simp [ha])]
    conv_rhs => rw [← List.takeWhile_append_dropWhile (fun b => decide ¬ fusedOrder a b) l]
    rw [List.filter_append]

theorem filter_insertionSort (l : List FusedDoc) (q : ℚ) :
    (List.insertionSort fusedOrder l).filter (fun fd => fd.fusion_score = q) =
      l.filter (fun fd => fd.fusion_score = q) := by
  induction l with
  | nil => rfl
  | cons b l ih =>
      rw [List.insertionSort, filter_orderedInsert, List.filter_cons]
      by_cases hb : b.fusion_score = q
      · rw [if_pos hb, ih, if_pos (by simp [hb])]
      · rw [if_neg hb, ih, if_neg (by simp [hb])]

theorem adjust_weight_mono (s : String) (intent : Intent) {b₁ b₂ : ℚ} (h : b₁ ≤ b₂) :
    adjust_strategy_weight_by_intent s intent b₁ ≤
      adjust_strategy_weight_by_intent s intent b₂ := by
  unfold adjust_strategy_weight_by_intent
  split_ifs
  · exact mul_le_mul_of_nonneg_right h (by norm_num)
  · exact mul_le_mul_of_nonneg_right h (by norm_num)
  · exact h
  · exact h

theorem specScores_sum_mono (w₁ w₂ : String → ℚ) (intent : Intent) (s : String)
    (hw : w₁ s ≤ w₂ s) (hother : ∀ t, t ≠ s → w₁ t = w₂ t) :
    ∀ (L : List (String × List Doc)) (i : ℕ),
      ((specScores w₁ intent L i).map Prod.snd).sum ≤
        ((specScores w₂ intent L i).map Prod.snd).sum := by
  intro L i
  induction L with
  | nil => exact le_refl _
  | cons p T ih =>
      simp only [specScores, List.filterMap_cons] at ih ⊢
      by_cases hi : i ∈ p.2.map Doc.id
      · rw [if_pos hi, if_pos hi]
        simp only [List.map_cons, List.sum_cons]
        refine add_le_add ?_ ih
        by_cases hps : p.1 = s
        · rw [hps]
          exact mul_le_mul_of_nonneg_left (adjust_weight_mono s intent hw) (by positivity)
        · rw [hother p.1 hps]
      · rw [if_neg hi, if_neg hi]
        exact ih

theorem specScores_sum_eq_absent (w₁ w₂ : String → ℚ) (intent : Intent) (s : String)
    (hother : ∀ t, t ≠ s → w₁ t = w₂ t) :
    ∀ (L : List (String × List Doc)) (i : ℕ),
      (∀ docs, (s, docs) ∈ L → i ∉ docs.map Doc.id) →
      ((specScores w₁ intent L i).map Prod.snd).sum =
        ((specScores w₂ intent L i).map Prod.snd).sum := by
  intro L i
  induction L with
  | nil => intro _; rfl
  | cons p T ih =>
      intro habs
      simp only [specScores, List.filterMap_cons] at ih ⊢
      by_cases hi : i ∈ p.2.map Doc.id
      · rw [if_pos hi, if_pos hi]
        simp only [List.map_cons, List.sum_cons]
        have hps : p.1 ≠ s := by
          intro hps
          exact habs p.2 (by rw [← hps, Prod.mk.eta]; exact List.mem_cons_self p T) hi
        rw [hother p.1 hps, ih (fun docs hd => habs docs (List.mem_cons_of_mem p hd))]
      · rw [if_neg hi, if_neg hi]
        exact ih (fun docs hd => habs docs (List.mem_cons_of_mem p hd))

theorem strategyLists_nil_of_empty (ar : List (String × List Doc))
    (h : ∀ p ∈ ar, p.2 = []) :
    ∀ (st : List String), strategyLists st ar = [] := by
  intro st
  induction st with
  | nil => rfl
  | cons s rest ih =>
      simp only [strategyLists, List.filterMap_cons]
      cases hl : lookupDocs ar s with
      | none => simp only [hl]; exact ih
      | some docs =>
          simp only [hl]
          have hd : docs = [] := h (s, docs) (lookupDocs_mem ar s docs hl)
          rw [if_pos hd]
          exact ih

theorem setAssocDocs_vals (k : String) :
    ∀ (l : List (String × List Doc)), (∀ p ∈ l, p.2 = []) →
      ∀ p ∈ setAssocDocs l k [], p.2 = [] := by
  intro l
  induction l with
  | nil =>
      intro _ p hp
      simp only [setAssocDocs, List.mem_singleton] at hp
      rw [hp]
  | cons e t ih =>
      intro h p hp
      rw [setAssocDocs] at hp
      by_cases he : e.1 = k
      · rw [if_pos he] at hp
        rcases List.mem_cons.mp hp with rfl | hp'
        · rfl
        · exact h p (List.mem_cons_of_mem e hp')
      · rw [if_neg he] at hp
        rcases List.mem_cons.mp hp with rfl | hp'
        · exact h p (List.mem_cons_self p t)
        · exact ih (fun x hx => h x (List.mem_cons_of_mem e hx)) p hp'

theorem execute_raises_vals (run : String → StrategyOutcome) :
    ∀ (st : List String), (∀ s ∈ st, run s = .raises) →
      ∀ p ∈ execute_intention_aware_retrieval st run, p.2 = [] := by
  have aux : ∀ (st : List String) (acc : List (String × List Doc)),
      (∀ s ∈ st, run s = .raises) → (∀ p ∈ acc, p.2 = []) →
      ∀ p ∈ st.foldl
        (fun acc s =>
          match run s with
          | .ok docs => setAssocDocs acc s docs
          | .raises => setAssocDocs acc s []
          | .unknown => acc) acc, p.2 = [] := by
    intro st
    induction st with
    | nil => intro acc _ hacc p hp; exact hacc p hp
    | cons s rest ih =>
        intro acc h hacc p hp
        rw [List.foldl_cons] at hp
        have hs := h s (List.mem_cons_self s rest)
        rw [hs] at hp
        exact ih _ (fun t ht => h t (List.mem_cons_of_mem s ht))
          (setAssocDocs_vals s acc hacc) p hp
  intro st h p hp
  exact aux st [] h (by simp) p hp

/-! ## Claim theorems: retriever -/

/-- C1: in fusion, a candidate at rank `r` (0-based) of a strategy's result
list contributes exactly `weight / (r + 60)` from that strategy (with the
intent-adjusted weight); its total fused score is the sum of these
contributions over exactly the strategies whose result lists contain it;
and (with nonnegative weights, the configured situation) a candidate found
by a single strategy with positive weight still gets a positive score
rather than being dropped. -/
theorem C1_weighted_rrf (w : String → ℚ) (st : List String) (ar : List (String × List Doc))
    (intent : Intent) (s : String) (docs : List Doc) (r : ℕ) (d : Doc)
    (hnds : st.Nodup)
    (hndl : ∀ t l, lookupDocs ar t = some l → (l.map Doc.id).Nodup)
    (hs : s ∈ st) (hdocs : lookupDocs ar s = some docs) (hr : docs.get? r = some d) :
    ∃ fd ∈ intention_aware_fusion w st ar intent,
      fd.doc.id = d.id ∧
      lookupQ fd.strategy_scores s =
        some (1 / ((r : ℚ) + 60) * adjust_strategy_weight_by_intent s intent (w s)) ∧
      fd.fusion_score = (rrf_contributions w st ar intent d.id).sum ∧
      ((∀ t ∈ st, 0 ≤ adjust_strategy_weight_by_intent t intent (w t)) →
        0 < adjust_strategy_weight_by_intent s intent (w s) →
        0 < fd.fusion_score) := by
  have hne : docs ≠ [] := by
    intro hnil; rw [hnil] at hr; simp at hr
  have hdmem : d ∈ docs := List.get?_mem hr
  have hidmem : d.id ∈ docs.map Doc.id := List.mem_map_of_mem Doc.id hdmem
  have hSL : (s, docs) ∈ strategyLists st ar := strategyLists_of ar st s docs hs hdocs hne
  have hocc : occursIn (strategyLists st ar) d.id := ⟨(s, docs), hSL, hidmem⟩
  have hscores := ranked_results_scores w st ar intent hnds hndl d.id
  rw [if_pos hocc] at hscores
  rcases entryScores_some_mem _ _ _ hscores with ⟨e, he, heid, hesc⟩
  have hinv := ranked_results_inv w st ar intent e he
  have hnames : ((strategyLists st ar).map Prod.fst).Nodup :=
    (strategyLists_names ar st).nodup hnds
  have hidx : (docs.map Doc.id).indexOf d.id = r := by
    have hnd := hndl s docs hdocs
    have hget : (docs.map Doc.id).get? r = some d.id := by
      rw [List.get?_eq_getElem?, List.getElem?_map, ← List.get?_eq_getElem?, hr]; rfl
    have h2 := List.indexOf_get? hidmem
    have hlt : (docs.map Doc.id).indexOf d.id < (docs.map Doc.id).length :=
      List.indexOf_lt_length.2 hidmem
    apply List.getElem?_inj hlt hnd
    rw [← List.get?_eq_getElem?, ← List.get?_eq_getElem?, h2, hget]
  have hlq : lookupQ e.scores s =
      some (1 / ((r : ℚ) + 60) * adjust_strategy_weight_by_intent s intent (w s)) := by
    rw [hesc, lookupQ_specScores w intent _ hnames s docs d.id hSL hidmem, hidx]
  refine ⟨⟨e.doc, (e.scores.map Prod.snd).sum, e.scores⟩, ?_, ?_, ?_, ?_, ?_⟩
  · unfold intention_aware_fusion
    rw [List.mem_insertionSort]
    exact List.mem_map_of_mem _ he
  · exact hinv.1.trans heid
  · exact hlq
  · show (e.scores.map Prod.snd).sum = _
    rw [hesc, rrf_contributions_eq]
  · intro hw0 hwpos
    show 0 < (e.scores.map Prod.snd).sum
    rw [hesc]
    have hvmem : (s, 1 / (((docs.map Doc.id).indexOf d.id : ℚ) + 60) *
        adjust_strategy_weight_by_intent s intent (w s)) ∈
        specScores w intent (strategyLists st ar) d.id := by
      apply lookupQ_mem
      rw [lookupQ_specScores w intent _ hnames s docs d.id hSL hidmem]
    have hnonneg : ∀ x ∈ (specScores w intent (strategyLists st ar) d.id).map Prod.snd,
        0 ≤ x := by
      intro x hx
      rcases List.mem_map.mp hx with ⟨pr, hpr, rfl⟩
      rcases specScores_mem w intent _ _ _ hpr with ⟨p, hp, _, rfl⟩
      exact mul_nonneg (by positivity)
        (hw0 p.1 (strategyLists_mem ar st p hp).1)
    refine sum_pos_of_mem_nonneg _ hnonneg
      (1 / (((docs.map Doc.id).indexOf d.id : ℚ) + 60) *
        adjust_strategy_weight_by_intent s intent (w s))
      (List.mem_map_of_mem Prod.snd hvmem) ?_
    exact mul_pos (by positivity) hwpos

/-- Closed witness for C1 at a one-strategy, one-document input. -/
theorem C1_witness :
    ∃ fd ∈ intention_aware_fusion default_weights default_strategies
        [("semantic", [mkDoc 7])] generalIntent,
      fd.doc.id = (mkDoc 7).id ∧
      lookupQ fd.strategy_scores "semantic" =
        some (1 / ((0 : ℚ) + 60) *
          adjust_strategy_weight_by_intent "semantic" generalIntent
            (default_weights "semantic")) ∧
      fd.fusion_score = (rrf_contributions default_weights default_strategies
        [("semantic", [mkDoc 7])] generalIntent (mkDoc 7).id).sum ∧
      ((∀ t ∈ default_strategies,
          0 ≤ adjust_strategy_weight_by_intent t generalIntent (default_weights t)) →
        0 < adjust_strategy_weight_by_intent "semantic" generalIntent
          (default_weights "semantic") →
        0 < fd.fusion_score) :=
  C1_weighted_rrf default_weights default_strategies [("semantic", [mkDoc 7])]
    generalIntent "semantic" [mkDoc 7] 0 (mkDoc 7)
    (by with_unfolding_all decide)
    (by
      intro t l h
      rw [lookupDocs] at h
      by_cases ht : "semantic" = t
      · rw [if_pos ht] at h
        have := Option.some.inj h
        rw [← this]
        decide
      · rw [if_neg ht, lookupDocs] at h
        cases h)
    (by with_unfolding_all decide) (by with_unfolding_all decide) (by with_unfolding_all decide)

/-- C2: the fusion output never contains the same candidate id twice, even
when several strategies return the same candidate. -/
theorem C2_dedup_fusion (w : String → ℚ) (st : List String)
    (ar : List (String × List Doc)) (intent : Intent) :
    ((intention_aware_fusion w st ar intent).map (fun fd => fd.doc.id)).Nodup := by
  unfold intention_aware_fusion
  have hperm := List.perm_insertionSort fusedOrder
    (fuseEntries (ranked_results w st ar intent))
  rw [(hperm.map (fun fd => fd.doc.id)).nodup_iff]
  have heq : (fuseEntries (ranked_results w st ar intent)).map (fun fd => fd.doc.id)
      = (ranked_results w st ar intent).map Entry.id := by
    unfold fuseEntries
    rw [List.map_map]
    exact List.map_congr_left
      (fun e he => (ranked_results_inv w st ar intent e he).1)
  rw [heq]
  exact ranked_results_nodup w st ar intent

/-- C4: when every strategy raises, `multi_way_retrieve` returns the empty
list (each failure is isolated into an empty strategy result, and fusing
plus reranking all-empty results is empty). -/
theorem C4_graceful_degradation (w : String → ℚ) (st : List String)
    (run : String → StrategyOutcome) (intent : Intent) (top_k : ℕ)
    (h : ∀ s ∈ st, run s = .raises) :
    multi_way_retrieve w st run intent top_k = [] := by
  have hvals := execute_raises_vals run st h
  have hsl := strategyLists_nil_of_empty _ hvals st
  have hranked : ranked_results w st (execute_intention_aware_retrieval st run) intent = [] := by
    rw [ranked_results_eq, hsl]
    rfl
  unfold multi_way_retrieve fuse_and_rerank intention_aware_fusion detailed_rerank
  rw [hranked]
  simp [fuseEntries]

/-- Closed witness for C4: all three configured strategies raising yields
the empty final list. -/
theorem C4_witness :
    multi_way_retrieve default_weights default_strategies
      (fun _ => StrategyOutcome.raises) generalIntent 10 = [] ∧
    (∀ s ∈ default_strategies, (fun _ => StrategyOutcome.raises) s = .raises) :=
  ⟨C4_graceful_degradation default_weights default_strategies
      (fun _ => StrategyOutcome.raises) generalIntent 10 (fun _ _ => rfl),
    fun _ _ => rfl⟩

set_option maxRecDepth 10000 in
/-- C6 (counterexample): the fusion output is not strictly descending with
ties broken by candidate id.  With the configured weights, candidate 5
(semantic rank 32) ties candidate 3 (keyword rank 9) at 1/230 but appears
before it (descending ids, violating an ascending tie-break), and
candidate 2 (semantic rank 36) ties candidate 4 (keyword rank 12) at
1/240 and appears before it (ascending ids): ties follow insertion order,
not candidate id, and sorting is non-strict.  Both ties are exact in the
program's IEEE doubles as well (see `c6keyword`), and every other pair
of fused scores is distinct in both arithmetics, so the program's output
at this input is the model's output. -/
theorem C6_counterexample :
    ¬ c6ClaimOrdering (intention_aware_fusion default_weights default_strategies
      c6allResults generalIntent) := by
  unfold c6ClaimOrdering
  with_unfolding_all decide

/-- C6 (amended): the fusion output is sorted by non-increasing fused
score, and candidates with equal fused scores keep their insertion order
(first appearance across strategies, i.e. the pre-sort order), which is
what Python's stable sort produces — they are not reordered by candidate
id. -/
theorem C6_sorted_stable (w : String → ℚ) (st : List String)
    (ar : List (String × List Doc)) (intent : Intent) :
    List.Sorted fusedOrder (intention_aware_fusion w st ar intent) ∧
    ∀ q : ℚ, (intention_aware_fusion w st ar intent).filter
        (fun fd => fd.fusion_score = q)
      = (fuseEntries (ranked_results w st ar intent)).filter
        (fun fd => fd.fusion_score = q) := by
  constructor
  · exact List.sorted_insertionSort fusedOrder _
  · intro q
    exact filter_insertionSort _ q

/-- C7: the formatting loop of `_semantic_retrieval` evaluates
`doc["semantic_score"]` on a dict whose only score key is `"score"`; on any
non-empty hit list it therefore raises `KeyError` instead of attaching the
intent-adjusted score the claim describes. -/
theorem C7_semantic_score_keyerror (hits : List Hit) (intent : Intent) (h : hits ≠ []) :
    semantic_retrieval hits intent = .error "KeyError: semantic_score" := by
  cases hits with
  | nil => exact absurd rfl h
  | cons hit t => rfl

/-- Closed witness for C7 at a concrete hit. -/
theorem C7_witness :
    semantic_retrieval [c7hit] generalIntent = .error "KeyError: semantic_score" ∧
    ([c7hit] : List Hit) ≠ [] :=
  ⟨C7_semantic_score_keyerror [c7hit] generalIntent (by simp), by simp⟩

/-- C8: increasing one strategy's configured weight never decreases any
candidate's fused score, and leaves the score of candidates absent from
that strategy's result list unchanged. -/
theorem C8_weight_monotonicity (w₁ w₂ : String → ℚ) (st : List String)
    (ar : List (String × List Doc)) (intent : Intent) (s : String)
    (hnds : st.Nodup)
    (hndl : ∀ t l, lookupDocs ar t = some l → (l.map Doc.id).Nodup)
    (hw : w₁ s ≤ w₂ s) (hother : ∀ t, t ≠ s → w₁ t = w₂ t) :
    ∀ fd₂ ∈ intention_aware_fusion w₂ st ar intent,
      ∃ fd₁ ∈ intention_aware_fusion w₁ st ar intent,
        fd₁.doc.id = fd₂.doc.id ∧ fd₁.fusion_score ≤ fd₂.fusion_score ∧
        ((∀ docs, lookupDocs ar s = some docs → fd₂.doc.id ∉ docs.map Doc.id) →
          fd₁.fusion_score = fd₂.fusion_score) := by
  intro fd₂ hfd₂
  unfold intention_aware_fusion fuseEntries at hfd₂
  rw [List.mem_insertionSort] at hfd₂
  rcases List.mem_map.mp hfd₂ with ⟨e₂, he₂, rfl⟩
  have hinv₂ := ranked_results_inv w₂ st ar intent e₂ he₂
  have hsc₂ : entryScores (ranked_results w₂ st ar intent) e₂.id = some e₂.scores :=
    entryScores_of_mem _ (ranked_results_nodup w₂ st ar intent) e₂ he₂
  have hchar₂ := ranked_results_scores w₂ st ar intent hnds hndl e₂.id
  by_cases hocc : occursIn (strategyLists st ar) e₂.id
  · rw [if_pos hocc] at hchar₂
    have hspec₂ : e₂.scores = specScores w₂ intent (strategyLists st ar) e₂.id :=
      Option.some.inj (hsc₂.symm.trans hchar₂)
    have hchar₁ := ranked_results_scores w₁ st ar intent hnds hndl e₂.id
    rw [if_pos hocc] at hchar₁
    rcases entryScores_some_mem _ _ _ hchar₁ with ⟨e₁, he₁, heid₁, hesc₁⟩
    have hinv₁ := ranked_results_inv w₁ st ar intent e₁ he₁
    refine ⟨⟨e₁.doc, (e₁.scores.map Prod.snd).sum, e₁.scores⟩, ?_, ?_, ?_, ?_⟩
    · unfold intention_aware_fusion fuseEntries
      rw [List.mem_insertionSort]
      exact List.mem_map_of_mem _ he₁
    · show e₁.doc.id = e₂.doc.id
      rw [hinv₁.1, heid₁, hinv₂.1]
    · show (e₁.scores.map Prod.snd).sum ≤ (e₂.scores.map Prod.snd).sum
      rw [hesc₁, hspec₂]
      exact specScores_sum_mono w₁ w₂ intent s hw hother _ e₂.id
    · intro habs
      show (e₁.scores.map Prod.snd).sum = (e₂.scores.map Prod.snd).sum
      rw [hesc₁, hspec₂]
      apply specScores_sum_eq_absent w₁ w₂ intent s hother _ e₂.id
      intro docs hd
      rcases strategyLists_mem ar st (s, docs) hd with ⟨_, h2, _⟩
      have := habs docs h2
      rw [hinv₂.1] at this
      exact this
  · rw [if_neg hocc] at hchar₂
    rw [hchar₂] at hsc₂
    cases hsc₂

/-- Closed witness for C8: raising the semantic weight from 0.4 to 0.5. -/
theorem C8_witness :
    ∃ fd₁ ∈ intention_aware_fusion default_weights default_strategies
        [("semantic", [mkDoc 7])] generalIntent,
      fd₁.doc.id = (⟨mkDoc 7, 1 / ((0 : ℚ) + 60) * (1/2), [("semantic", 1 / ((0 : ℚ) + 60) * (1/2))]⟩ : FusedDoc).doc.id ∧
      fd₁.fusion_score ≤ (⟨mkDoc 7, 1 / ((0 : ℚ) + 60) * (1/2), [("semantic", 1 / ((0 : ℚ) + 60) * (1/2))]⟩ : FusedDoc).fusion_score ∧
      ((∀ docs, lookupDocs [("semantic", [mkDoc 7])] "semantic" = some docs →
          (⟨mkDoc 7, 1 / ((0 : ℚ) + 60) * (1/2), [("semantic", 1 / ((0 : ℚ) + 60) * (1/2))]⟩ : FusedDoc).doc.id ∉ docs.map Doc.id) →
        fd₁.fusion_score = (⟨mkDoc 7, 1 / ((0 : ℚ) + 60) * (1/2), [("semantic", 1 / ((0 : ℚ) + 60) * (1/2))]⟩ : FusedDoc).fusion_score) :=
  C8_weight_monotonicity default_weights c8w2 default_strategies
    [("semantic", [mkDoc 7])] generalIntent "semantic"
    (by with_unfolding_all decide)
    (by
      intro t l h
      rw [lookupDocs] at h
      by_cases ht : "semantic" = t
      · rw [if_pos ht] at h
        have := Option.some.inj h
        rw [← this]
        decide
      · rw [if_neg ht, lookupDocs] at h
        cases h)
    (by with_unfolding_all decide)
    (by
      intro t ht
      show default_weights t = c8w2 t
      unfold c8w2
      rw [if_neg ht])
    ⟨mkDoc 7, 1 / ((0 : ℚ) + 60) * (1/2), [("semantic", 1 / ((0 : ℚ) + 60) * (1/2))]⟩
    (by with_unfolding_all decide)

/-- C10: every candidate surviving fusion and fine reranking carries an
unchanged payload: its whole doc (id, content, word, chunk type,
originating strategy, raw score) equals one of the docs of some strategy's
input result list; only fusion bookkeeping is added. -/
theorem C10_payload_preserved (w : String → ℚ) (st : List String)
    (ar : List (String × List Doc)) (intent : Intent) (top_k : ℕ) :
    ∀ fd ∈ fuse_and_rerank w st ar intent top_k,
      ∃ s ∈ st, ∃ docs, lookupDocs ar s = some docs ∧ fd.doc ∈ docs := by
  intro fd hfd
  unfold fuse_and_rerank at hfd
  have h1 : fd ∈ detailed_rerank
      ((intention_aware_fusion w st ar intent).take (top_k * 3)) intent :=
    List.take_subset _ _ hfd
  unfold detailed_rerank at h1
  rw [List.mem_insertionSort] at h1
  rcases List.mem_map.mp h1 with ⟨fd', hfd', heq⟩
  have hdoc : fd.doc = fd'.doc := by rw [← heq]
  have h2 : fd' ∈ intention_aware_fusion w st ar intent := List.take_subset _ _ hfd'
  unfold intention_aware_fusion fuseEntries at h2
  rw [List.mem_insertionSort] at h2
  rcases List.mem_map.mp h2 with ⟨e, he, heq₂⟩
  have hdoc₂ : fd'.doc = e.doc := by rw [← heq₂]
  rcases (ranked_results_inv w st ar intent e he).2 with ⟨p, hp, hmem⟩
  rcases strategyLists_mem ar st p hp with ⟨h1s, h2s, _⟩
  refine ⟨p.1, h1s, p.2, h2s, ?_⟩
  rw [hdoc, hdoc₂]
  exact hmem

/-- Closed witness for C10 at a one-strategy, one-document input. -/
theorem C10_witness :
    (⟨mkDoc 7, 1/150, [("semantic", 1/150)]⟩ : FusedDoc) ∈
      fuse_and_rerank default_weights default_strategies
        [("semantic", [mkDoc 7])] generalIntent 10 ∧
    ∃ s ∈ default_strategies, ∃ docs,
      lookupDocs [("semantic", [mkDoc 7])] s = some docs ∧
      (⟨mkDoc 7, 1/150, [("semantic", 1/150)]⟩ : FusedDoc).doc ∈ docs :=
  ⟨by with_unfolding_all decide,
    C10_payload_preserved default_weights default_strategies
      [("semantic", [mkDoc 7])] generalIntent 10 _ (by with_unfolding_all decide)⟩

/-! ## Lemmas: generic helpers for the recognizer -/

theorem firstSome_some {α β : Type} (l : List α) (f : α → Option β) (b : β)
    (h : firstSome l f = some b) : ∃ a ∈ l, f a = some b := by
  induction l with
  | nil => simp [firstSome] at h
  | cons x t ih =>
      rw [firstSome] at h
      cases hx : f x with
      | some c =>
          simp only [hx] at h
          exact ⟨x, List.mem_cons_self x t, hx.trans h⟩
      | none =>
          simp only [hx] at h
          rcases ih h with ⟨a, ha, hfa⟩
          exact ⟨a, List.mem_cons_of_mem x ha, hfa⟩

theorem maxByVal_mem {α β : Type} [LinearOrder β] (l : List (α × β)) (b : α × β)
    (h : maxByVal l = some b) : b ∈ l := by
  have aux : ∀ (t : List (α × β)) (x : α × β),
      t.foldl (fun b y => if y.2 > b.2 then y else b) x ∈ x :: t := by
    intro t
    induction t with
    | nil => intro x; exact List.mem_cons_self x []
    | cons y t ih =>
        intro x
        rw [List.foldl_cons]
        rcases List.mem_cons.mp (ih (if y.2 > x.2 then y else x)) with h1 | h1
        · rw [h1]
          by_cases hy : y.2 > x.2
          · rw [if_pos hy]; exact List.mem_cons_of_mem x (List.mem_cons_self y t)
          · rw [if_neg hy]; exact List.mem_cons_self x (y :: t)
        · exact List.mem_cons_of_mem x (List.mem_cons_of_mem y h1)
  cases l with
  | nil => simp [maxByVal] at h
  | cons x t =>
      simp only [maxByVal] at h
      rw [← Option.some.inj h]
      exact aux t x

theorem maxByVal_eq_none {α β : Type} [LinearOrder β] (l : List (α × β))
    (h : maxByVal l = none) : l = [] := by
  cases l with
  | nil => rfl
  | cons x t => simp [maxByVal] at h

theorem dedupKeepFirst_subset (l : List String) : ∀ x ∈ dedupKeepFirst l, x ∈ l := by
  induction l with
  | nil => intro x hx; simp [dedupKeepFirst] at hx
  | cons a t ih =>
      intro x hx
      rw [dedupKeepFirst] at hx
      split_ifs at hx with h1 h2
      · exact List.mem_cons_of_mem a (ih x hx)
      · rcases List.mem_cons.mp hx with rfl | hx'
        · exact List.mem_cons_self x t
        · exact List.mem_cons_of_mem a (ih x hx')
      · rcases List.mem_cons.mp hx with rfl | hx'
        · exact List.mem_cons_self x t
        · exact List.mem_cons_of_mem a (ih x hx')

theorem majorityTarget_mem (ts : List String) :
    majorityTarget ts ∈ ts ∨ majorityTarget ts = "" := by
  unfold majorityTarget
  cases h : maxByVal ((dedupKeepFirst ts).map (fun t =>
      (t, (ts.filter (fun x => x = t)).length))) with
  | none => right; simp only [h]
  | some best =>
      left
      simp only [h]
      rcases List.mem_map.mp (maxByVal_mem _ _ h) with ⟨t, ht, hteq⟩
      have hb1 : best.1 = t := by rw [← hteq]
      rw [hb1]
      exact dedupKeepFirst_subset ts t ht

theorem foldPickQ_ge_init : ∀ (t : List ℚ) (b : ℚ),
    b ≤ t.foldl (fun b y => if y > b then y else b) b := by
  intro t
  induction t with
  | nil => intro b; exact le_refl b
  | cons y t ih =>
      intro b
      rw [List.foldl_cons]
      refine le_trans ?_ (ih _)
      by_cases hy : y > b
      · rw [if_pos hy]; exact le_of_lt hy
      · rw [if_neg hy]

theorem foldPickQ_le : ∀ (t : List ℚ) (b c : ℚ), b ≤ c → (∀ y ∈ t, y ≤ c) →
    t.foldl (fun b y => if y > b then y else b) b ≤ c := by
  intro t
  induction t with
  | nil => intro b c hb _; exact hb
  | cons y t ih =>
      intro b c hb hall
      rw [List.foldl_cons]
      refine ih _ c ?_ (fun z hz => hall z (List.mem_cons_of_mem y hz))
      by_cases hy : y > b
      · rw [if_pos hy]; exact hall y (List.mem_cons_self y t)
      · rw [if_neg hy]; exact hb

theorem maxQ_nonneg (l : List ℚ) (h : ∀ y ∈ l, 0 ≤ y) : 0 ≤ maxQ l := by
  cases l with
  | nil => exact le_refl 0
  | cons x t =>
      rw [maxQ]
      exact le_trans (h x (List.mem_cons_self x t)) (foldPickQ_ge_init t x)

theorem maxQ_le (l : List ℚ) (c : ℚ) (hc : 0 ≤ c) (h : ∀ y ∈ l, y ≤ c) : maxQ l ≤ c := by
  cases l with
  | nil => exact hc
  | cons x t =>
      rw [maxQ]
      exact foldPickQ_le t x c (h x (List.mem_cons_self x t))
        (fun y hy => h y (List.mem_cons_of_mem x hy))

theorem foldPickP_ge_init : ∀ (t : List (String × ℚ)) (b : ℚ),
    b ≤ t.foldl (fun b y => if y.2 > b then y.2 else b) b := by
  intro t
  induction t with
  | nil => intro b; exact le_refl b
  | cons y t ih =>
      intro b
      rw [List.foldl_cons]
      refine le_trans ?_ (ih _)
      by_cases hy : y.2 > b
      · rw [if_pos hy]; exact le_of_lt hy
      · rw [if_neg hy]

theorem foldPickP_ge_mem : ∀ (t : List (String × ℚ)) (y : String × ℚ), y ∈ t →
    ∀ b : ℚ, y.2 ≤ t.foldl (fun b y => if y.2 > b then y.2 else b) b := by
  intro t
  induction t with
  | nil => intro y hy; simp at hy
  | cons z t ih =>
      intro y hy b
      rw [List.foldl_cons]
      rcases List.mem_cons.mp hy with rfl | hy'
      · refine le_trans ?_ (foldPickP_ge_init t _)
        by_cases hz : y.2 > b
        · rw [if_pos hz]
        · rw [if_neg hz]; exact le_of_not_lt hz
      · exact ih y hy' _

theorem maxVals_ge (l : List (String × ℚ)) : ∀ p ∈ l, p.2 ≤ maxVals l := by
  intro p hp
  cases l with
  | nil => simp at hp
  | cons x t =>
      rw [maxVals]
      rcases List.mem_cons.mp hp with rfl | hp'
      · exact foldPickP_ge_init t p.2
      · exact foldPickP_ge_mem t p hp' x.2

theorem normScores_facts (scores : List (String × ℚ)) (hnn : ∀ p ∈ scores, 0 ≤ p.2) :
    ∀ p ∈ scores.map (fun p =>
      (p.1, if maxVals scores > 0 then p.2 / maxVals scores else 0)),
      0 ≤ p.2 ∧ p.2 ≤ 1 ∧ p.1 ∈ scores.map Prod.fst := by
  intro p hp
  rcases List.mem_map.mp hp with ⟨p₀, hp₀, rfl⟩
  refine ⟨?_, ?_, List.mem_map.mpr ⟨p₀, hp₀, rfl⟩⟩
  · by_cases hm : maxVals scores > 0
    · simp only [if_pos hm]
      exact div_nonneg (hnn p₀ hp₀) (le_of_lt hm)
    · simp only [if_neg hm]
      exact le_refl 0
  · by_cases hm : maxVals scores > 0
    · simp only [if_pos hm]
      rw [div_le_one hm]
      exact maxVals_ge scores p₀ hp₀
    · simp only [if_neg hm]
      norm_num

theorem jaccardQ_bounds (w1 w2 : List String) :
    0 ≤ jaccardQ w1 w2 ∧ jaccardQ w1 w2 ≤ 1 := by
  unfold jaccardQ
  split_ifs with h
  · constructor
    · positivity
    · rw [div_le_one (by exact_mod_cast h)]
      have hle : (w1.filter (fun x => w2.contains x)).length ≤
          (w1 ++ w2.filter (fun x => !w1.contains x)).length := by
        rw [List.length_append]
        exact le_trans (List.length_filter_le _ _) (Nat.le_add_right _ _)
      exact_mod_cast hle
  · exact ⟨le_refl 0, by norm_num⟩

theorem calculate_text_similarity_bounds (a b : String) :
    0 ≤ calculate_text_similarity a b ∧ calculate_text_similarity a b ≤ 1 := by
  unfold calculate_text_similarity
  split_ifs with h
  · exact ⟨le_refl 0, by norm_num⟩
  · exact jaccardQ_bounds _ _

/-! ## Lemmas: validity of the extraction-cascade stages -/

theorem patternGroupTarget_valid (q : String) (groups : List String) (cand : String)
    (h : patternGroupTarget q groups = some cand) : is_valid_target cand q = true := by
  rcases firstSome_some _ _ _ h with ⟨g, _, hg⟩
  dsimp only at hg
  by_cases h1 : g = ""
  · rw [if_pos h1] at hg; exact Option.noConfusion hg
  · rw [if_neg h1] at hg
    by_cases h2 : is_valid_target
        (if (stripWS g).data.any isAsciiAlpha then stripWS g
         else clean_chinese_candidate (stripWS g)) q = true
    · rw [if_pos h2] at hg
      exact Option.some.inj hg ▸ h2
    · rw [if_neg h2] at hg
      exact Option.noConfusion hg

theorem quotedTarget_valid (q c : String) (h : quotedTarget q = some c) :
    is_valid_target c q = true := by
  rcases firstSome_some _ _ _ h with ⟨re, _, hre⟩
  cases hm : reSearch re q with
  | none =>
      simp only [hm] at hre
      exact Option.noConfusion hre
  | some m =>
      simp only [hm] at hre
      by_cases h1 : is_valid_target (stripWS ((capGroup q.data m 1).getD "")) q = true
      · rw [if_pos h1] at hre
        exact Option.some.inj hre ▸ h1
      · rw [if_neg h1] at hre
        exact Option.noConfusion hre

theorem englishTarget_valid (q c : String) (h : englishTarget q = some c) :
    is_valid_target c q = true := by
  unfold englishTarget at h
  dsimp only at h
  by_cases h1 : findallG1 reEngToken q ≠ []
  · rw [if_pos h1] at h
    by_cases h2 : (select_best_english_target (findallG1 reEngToken q) q ≠ "" &&
        is_valid_target (select_best_english_target (findallG1 reEngToken q) q) q) = true
    · rw [if_pos h2] at h
      have h3 := (Bool.and_eq_true _ _).mp h2
      exact Option.some.inj h ▸ h3.2
    · rw [if_neg h2] at h
      exact Option.noConfusion h
  · rw [if_neg h1] at h
    exact Option.noConfusion h

theorem chineseTarget_valid (q c : String) (h : chineseTarget q = some c) :
    is_valid_target c q = true := by
  unfold chineseTarget at h
  rcases firstSome_some _ _ _ h with ⟨pre, _, h1⟩
  rcases firstSome_some _ _ _ h1 with ⟨m, _, h2⟩
  rcases firstSome_some _ _ _ h2 with ⟨g, _, h3⟩
  dsimp only at h3
  by_cases hv : (clean_chinese_candidate (stripWS g) ≠ "" &&
      is_valid_target (clean_chinese_candidate (stripWS g)) q) = true
  · rw [if_pos hv] at h3
    have hv2 := (Bool.and_eq_true _ _).mp hv
    exact Option.some.inj h3 ▸ hv2.2
  · rw [if_neg hv] at h3
    exact Option.noConfusion h3

theorem extract_target_word_sound (q : String) :
    extract_target_word q = "" ∨ is_valid_target (extract_target_word q) q = true ∨
    extract_target_word q = extract_core_concept q := by
  unfold extract_target_word
  by_cases hq : q = ""
  · rw [if_pos hq]; left; rfl
  · rw [if_neg hq]
    cases h1 : quotedTarget q with
    | some c => right; left; exact quotedTarget_valid q c h1
    | none =>
        cases h2 : englishTarget q with
        | some t => right; left; exact englishTarget_valid q t h2
        | none =>
            cases h3 : chineseTarget q with
            | some c => right; left; exact chineseTarget_valid q c h3
            | none => right; right; rfl

theorem patternHit_facts (q : String) (entry : String × List (RE × ℕ)) (r : IR)
    (h : patternHit q entry = some r) :
    r.type = entry.1 ∧ (r.confidence = 3/4 ∨ r.confidence = 3/5) ∧
    r.method = "pattern" ∧
    (is_valid_target r.target_word q = true ∨ r.target_word = extract_target_word q) := by
  rcases firstSome_some _ _ _ h with ⟨pre, _, hpre⟩
  cases hm : reSearch pre.1 q with
  | none =>
      simp only [hm] at hpre
      exact Option.noConfusion hpre
  | some m =>
      simp only [hm] at hpre
      cases hg : patternGroupTarget q (groupsList q.data m pre.2) with
      | some cand =>
          simp only [hg] at hpre
          rw [← Option.some.inj hpre]
          exact ⟨rfl, Or.inl rfl, rfl, Or.inl (patternGroupTarget_valid q _ cand hg)⟩
      | none =>
          simp only [hg] at hpre
          by_cases hf : extract_target_word q ≠ ""
          · rw [if_pos hf] at hpre
            rw [← Option.some.inj hpre]
            exact ⟨rfl, Or.inr rfl, rfl, Or.inr rfl⟩
          · rw [if_neg hf] at hpre
            exact Option.noConfusion hpre

theorem patternsTable_keys : ∀ e ∈ patternsTable, e.1 ∈ IntentLabels ∧ e.1 ≠ "general" := by
  decide

theorem pattern_based_facts (q : String) :
    (pattern_based_recognition q).type ∈ IntentLabels ∧
    ((pattern_based_recognition q).confidence = 3/4 ∨
      (pattern_based_recognition q).confidence = 3/5 ∨
      (pattern_based_recognition q).confidence = 3/10) ∧
    (pattern_based_recognition q).method = "pattern" ∧
    (is_valid_target (pattern_based_recognition q).target_word q = true ∨
      (pattern_based_recognition q).target_word = extract_target_word q) ∧
    ((pattern_based_recognition q).type = "general" →
      (pattern_based_recognition q).confidence = 3/10) := by
  unfold pattern_based_recognition
  cases h : firstSome patternsTable (patternHit q) with
  | none =>
      refine ⟨?_, Or.inr (Or.inr rfl), rfl, Or.inr rfl, fun _ => rfl⟩
      show "general" ∈ IntentLabels
      decide
  | some r =>
      simp only [h]
      rcases firstSome_some _ _ _ h with ⟨entry, hentry, hhit⟩
      rcases patternHit_facts q entry r hhit with ⟨h1, h2, h3, h4⟩
      refine ⟨?_, ?_, h3, h4, ?_⟩
      · rw [h1]; exact (patternsTable_keys entry hentry).1
      · rcases h2 with h2 | h2
        · exact Or.inl h2
        · exact Or.inr (Or.inl h2)
      · intro hgen
        rw [h1] at hgen
        exact absurd hgen (patternsTable_keys entry hentry).2

/-! ## Lemmas: the keyword and semantic signals -/

theorem kwKeys_sub : ∀ s ∈ INTENT_KEYWORDS.map Prod.fst, s ∈ IntentLabels ∧ s ≠ "general" := by
  decide

theorem semKeys_sub : ∀ s ∈ INTENT_EXAMPLES.map Prod.fst, s ∈ IntentLabels ∧ s ≠ "general" := by
  decide

theorem keywordScores_keys (q : String) :
    (keywordScores q).map Prod.fst = INTENT_KEYWORDS.map Prod.fst := by
  unfold keywordScores
  rw [List.map_map]
  rfl

theorem keyword_based_facts (q : String) :
    0 ≤ (keyword_based_recognition q).confidence ∧
    (keyword_based_recognition q).confidence ≤ 1 ∧
    (keyword_based_recognition q).type ∈ INTENT_KEYWORDS.map Prod.fst ∧
    (keyword_based_recognition q).target_word = extract_target_word q ∧
    (keyword_based_recognition q).method = "keyword" := by
  have hnn : ∀ p ∈ keywordScores q, 0 ≤ p.2 := by
    intro p hp
    rcases List.mem_map.mp hp with ⟨e, _, rfl⟩
    show (0:ℚ) ≤ ((e.2.filter (fun kw => strIn kw q)).length : ℚ)
    exact_mod_cast Nat.zero_le _
  unfold keyword_based_recognition
  cases hbest : maxByVal (keywordNormalized q) with
  | none =>
      exact absurd (maxByVal_eq_none _ hbest)
        (by simp [keywordNormalized, keywordScores, INTENT_KEYWORDS])
  | some best =>
      have hb := maxByVal_mem _ _ hbest
      unfold keywordNormalized at hb
      have hfacts := normScores_facts (keywordScores q) hnn best hb
      simp only [hbest, Option.getD_some]
      exact ⟨hfacts.1, hfacts.2.1, keywordScores_keys q ▸ hfacts.2.2, trivial, trivial⟩

theorem semanticScores_facts (q : String) : ∀ p ∈ semanticScores q,
    0 ≤ p.2 ∧ p.2 ≤ 1 ∧ p.1 ∈ INTENT_EXAMPLES.map Prod.fst := by
  intro p hp
  rcases List.mem_map.mp hp with ⟨e, he, rfl⟩
  refine ⟨?_, ?_, List.mem_map.mpr ⟨e, he, rfl⟩⟩
  · refine maxQ_nonneg _ ?_
    intro y hy
    rcases List.mem_map.mp hy with ⟨ex, _, rfl⟩
    exact (calculate_text_similarity_bounds q ex).1
  · refine maxQ_le _ 1 (by norm_num) ?_
    intro y hy
    rcases List.mem_map.mp hy with ⟨ex, _, rfl⟩
    exact (calculate_text_similarity_bounds q ex).2

theorem semantic_based_facts (q : String) :
    0 ≤ (semantic_similarity_recognition q).confidence ∧
    (semantic_similarity_recognition q).confidence ≤ 1 ∧
    (semantic_similarity_recognition q).type ∈ INTENT_EXAMPLES.map Prod.fst ∧
    (semantic_similarity_recognition q).target_word = extract_target_word q ∧
    (semantic_similarity_recognition q).method = "semantic" := by
  unfold semantic_similarity_recognition
  cases hbest : maxByVal (semanticScores q) with
  | none =>
      exact absurd (maxByVal_eq_none _ hbest)
        (by simp [semanticScores, INTENT_EXAMPLES])
  | some best =>
      have hfacts := semanticScores_facts q best (maxByVal_mem _ _ hbest)
      simp only [hbest, Option.getD_some]
      exact ⟨hfacts.1, hfacts.2.1, hfacts.2.2, trivial, trivial⟩

/-! ## Lemmas: combining the three signals -/

theorem methodWeight_nonneg (m : String) : 0 ≤ methodWeight m := by
  unfold methodWeight
  split_ifs <;> norm_num

theorem methodWeight_keyword : methodWeight "keyword" = 2/5 := by
  with_unfolding_all decide

theorem methodWeight_semantic : methodWeight "semantic" = 2/5 := by
  with_unfolding_all decide

theorem methodWeight_pattern : methodWeight "pattern" = 1/5 := by
  with_unfolding_all decide

theorem addScore_ne_nil (l : List (String × ℚ)) (k : String) (v : ℚ) :
    addScore l k v ≠ [] := by
  cases l with
  | nil => simp [addScore]
  | cons p t =>
      rw [addScore]
      split_ifs <;> simp

theorem addScore_sum (l : List (String × ℚ)) (k : String) (v : ℚ) :
    sumVals (addScore l k v) = sumVals l + v := by
  induction l with
  | nil =>
      show sumVals [(k, v)] = sumVals [] + v
      rw [sumVals, sumVals, sumVals]
      ring
  | cons p t ih =>
      rw [addScore]
      by_cases hp : p.1 = k
      · rw [if_pos hp, sumVals, sumVals]
        ring
      · rw [if_neg hp, sumVals, ih, sumVals]
        ring

theorem addScore_nonneg (l : List (String × ℚ)) (k : String) (v : ℚ)
    (hl : ∀ p ∈ l, 0 ≤ p.2) (hv : 0 ≤ v) : ∀ p ∈ addScore l k v, 0 ≤ p.2 := by
  induction l with
  | nil =>
      intro p hp
      rw [addScore] at hp
      rcases List.mem_singleton.mp hp with rfl
      exact hv
  | cons x t ih =>
      intro p hp
      rw [addScore] at hp
      by_cases hx : x.1 = k
      · rw [if_pos hx] at hp
        rcases List.mem_cons.mp hp with rfl | hp'
        · exact add_nonneg (hl x (List.mem_cons_self x t)) hv
        · exact hl p (List.mem_cons_of_mem x hp')
      · rw [if_neg hx] at hp
        rcases List.mem_cons.mp hp with rfl | hp'
        · exact hl p (List.mem_cons_self p t)
        · exact ih (fun y hy => hl y (List.mem_cons_of_mem x hy)) p hp'

theorem addScore_vals_le_zero (l : List (String × ℚ)) (k : String) (v : ℚ)
    (hl : ∀ p ∈ l, p.2 ≤ 0) (hv : v ≤ 0) : ∀ p ∈ addScore l k v, p.2 ≤ 0 := by
  induction l with
  | nil =>
      intro p hp
      rw [addScore] at hp
      rcases List.mem_singleton.mp hp with rfl
      exact hv
  | cons x t ih =>
      intro p hp
      rw [addScore] at hp
      by_cases hx : x.1 = k
      · rw [if_pos hx] at hp
        rcases List.mem_cons.mp hp with rfl | hp'
        · have := hl x (List.mem_cons_self x t)
          show x.2 + v ≤ 0
          linarith
        · exact hl p (List.mem_cons_of_mem x hp')
      · rw [if_neg hx] at hp
        rcases List.mem_cons.mp hp with rfl | hp'
        · exact hl p (List.mem_cons_self p t)
        · exact ih (fun y hy => hl y (List.mem_cons_of_mem x hy)) p hp'

theorem addScore_keys (l : List (String × ℚ)) (k : String) (v : ℚ) :
    ∀ p ∈ addScore l k v, p.1 ∈ l.map Prod.fst ∨ p.1 = k := by
  induction l with
  | nil =>
      intro p hp
      rw [addScore] at hp
      rcases List.mem_singleton.mp hp with rfl
      right; rfl
  | cons x t ih =>
      intro p hp
      rw [addScore] at hp
      by_cases hx : x.1 = k
      · rw [if_pos hx] at hp
        rcases List.mem_cons.mp hp with rfl | hp'
        · left; exact List.mem_cons_self x.1 (t.map Prod.fst)
        · left; exact List.mem_cons_of_mem x.1 (List.mem_map.mpr ⟨p, hp', rfl⟩)
      · rw [if_neg hx] at hp
        rcases List.mem_cons.mp hp with rfl | hp'
        · left; exact List.mem_cons_self p.1 (t.map Prod.fst)
        · rcases ih p hp' with h | h
          · left; exact List.mem_cons_of_mem x.1 h
          · right; exact h

theorem addScore_fresh (l : List (String × ℚ)) (k : String) (v : ℚ)
    (h : k ∉ l.map Prod.fst) : addScore l k v = l ++ [(k, v)] := by
  induction l with
  | nil => rfl
  | cons p t ih =>
      simp only [List.map_cons, List.mem_cons, not_or] at h
      rw [addScore, if_neg (fun hp => h.1 hp.symm), ih h.2, List.cons_append]

theorem sumVals_nonneg (l : List (String × ℚ)) (hl : ∀ p ∈ l, 0 ≤ p.2) :
    0 ≤ sumVals l := by
  induction l with
  | nil => exact le_refl 0
  | cons x t ih =>
      rw [sumVals]
      have h1 := hl x (List.mem_cons_self x t)
      have h2 := ih (fun y hy => hl y (List.mem_cons_of_mem x hy))
      linarith

theorem mem_le_sumVals (l : List (String × ℚ)) (hl : ∀ p ∈ l, 0 ≤ p.2) :
    ∀ p ∈ l, p.2 ≤ sumVals l := by
  induction l with
  | nil => intro p hp; simp at hp
  | cons x t ih =>
      intro p hp
      rw [sumVals]
      rcases List.mem_cons.mp hp with rfl | hp'
      · have h1 := sumVals_nonneg t (fun y hy => hl y (List.mem_cons_of_mem p hy))
        linarith
      · have h1 := ih (fun y hy => hl y (List.mem_cons_of_mem x hy)) p hp'
        have h2 := hl x (List.mem_cons_self x t)
        linarith

theorem foldScores_nonneg (rs : List IR) : ∀ (acc : List (String × ℚ)),
    (∀ p ∈ acc, 0 ≤ p.2) → (∀ r ∈ rs, 0 ≤ r.confidence) →
    ∀ p ∈ rs.foldl
      (fun acc r => addScore acc r.type (r.confidence * methodWeight r.method)) acc,
      0 ≤ p.2 := by
  induction rs with
  | nil =>
      intro acc hacc _ p hp
      rw [List.foldl_nil] at hp
      exact hacc p hp
  | cons r t ih =>
      intro acc hacc hrs p hp
      rw [List.foldl_cons] at hp
      exact ih _ (addScore_nonneg acc _ _ hacc
          (mul_nonneg (hrs r (List.mem_cons_self r t)) (methodWeight_nonneg _)))
        (fun y hy => hrs y (List.mem_cons_of_mem r hy)) p hp

theorem foldScores_sum (rs : List IR) : ∀ (acc : List (String × ℚ)),
    sumVals (rs.foldl
      (fun acc r => addScore acc r.type (r.confidence * methodWeight r.method)) acc)
    = sumVals acc + (rs.map (fun r => r.confidence * methodWeight r.method)).sum := by
  induction rs with
  | nil =>
      intro acc
      rw [List.foldl_nil, List.map_nil, List.sum_nil, add_zero]
  | cons r t ih =>
      intro acc
      rw [List.foldl_cons, ih, addScore_sum, List.map_cons, List.sum_cons]
      ring

theorem foldScores_keys (rs : List IR) : ∀ (acc : List (String × ℚ)),
    ∀ p ∈ rs.foldl
      (fun acc r => addScore acc r.type (r.confidence * methodWeight r.method)) acc,
      p.1 ∈ acc.map Prod.fst ∨ p.1 ∈ rs.map IR.type := by
  induction rs with
  | nil =>
      intro acc p hp
      rw [List.foldl_nil] at hp
      left
      exact List.mem_map.mpr ⟨p, hp, rfl⟩
  | cons r t ih =>
      intro acc p hp
      rw [List.foldl_cons] at hp
      rcases ih _ p hp with h | h
      · rcases List.mem_map.mp h with ⟨y, hy, hy1⟩
        rcases addScore_keys acc r.type _ y hy with h' | h'
        · left; exact hy1 ▸ h'
        · right
          rw [List.map_cons]
          exact List.mem_cons.mpr (Or.inl (hy1 ▸ h'))
      · right
        rw [List.map_cons]
        exact List.mem_cons.mpr (Or.inr h)

theorem foldScores_ne_nil (rs : List IR) : ∀ (acc : List (String × ℚ)),
    acc ≠ [] ∨ rs ≠ [] →
    rs.foldl
      (fun acc r => addScore acc r.type (r.confidence * methodWeight r.method)) acc
      ≠ [] := by
  induction rs with
  | nil =>
      intro acc h
      rw [List.foldl_nil]
      rcases h with h | h
      · exact h
      · exact absurd rfl h
  | cons r t ih =>
      intro acc _
      rw [List.foldl_cons]
      exact ih _ (Or.inl (addScore_ne_nil _ _ _))

theorem foldPick_append_strict : ∀ (t : List (String × ℚ)) (x p : String × ℚ),
    x.2 < p.2 → (∀ y ∈ t, y.2 < p.2) →
    (t ++ [p]).foldl (fun b y => if y.2 > b.2 then y else b) x = p := by
  intro t
  induction t with
  | nil =>
      intro x p hx _
      rw [List.nil_append, List.foldl_cons, List.foldl_nil, if_pos hx]
  | cons z t ih =>
      intro x p hx hall
      rw [List.cons_append, List.foldl_cons]
      by_cases hz : z.2 > x.2
      · rw [if_pos hz]
        exact ih z p (hall z (List.mem_cons_self z t))
          (fun y hy => hall y (List.mem_cons_of_mem z hy))
      · rw [if_neg hz]
        exact ih x p hx (fun y hy => hall y (List.mem_cons_of_mem z hy))

theorem maxByVal_append_strict (l : List (String × ℚ)) (p : String × ℚ)
    (h : ∀ y ∈ l, y.2 < p.2) : maxByVal (l ++ [p]) = some p := by
  cases l with
  | nil => rfl
  | cons x t =>
      rw [List.cons_append, maxByVal]
      rw [foldPick_append_strict t x p (h x (List.mem_cons_self x t))
        (fun y hy => h y (List.mem_cons_of_mem x hy))]

theorem combine_conf_nonneg (rs : List IR) (h : ∀ r ∈ rs, 0 ≤ r.confidence) :
    0 ≤ (combine_intent_results rs).confidence := by
  unfold combine_intent_results
  cases hb : maxByVal (rs.foldl
      (fun acc r => addScore acc r.type (r.confidence * methodWeight r.method)) []) with
  | none =>
      simp only [hb]
      norm_num
  | some best =>
      simp only [hb]
      exact foldScores_nonneg rs [] (by intro p hp; simp at hp) h best (maxByVal_mem _ _ hb)

theorem combine_conf_le (rs : List IR) (hne : rs ≠ []) (h : ∀ r ∈ rs, 0 ≤ r.confidence) :
    (combine_intent_results rs).confidence ≤
      (rs.map (fun r => r.confidence * methodWeight r.method)).sum := by
  unfold combine_intent_results
  cases hb : maxByVal (rs.foldl
      (fun acc r => addScore acc r.type (r.confidence * methodWeight r.method)) []) with
  | none =>
      exact absurd (maxByVal_eq_none _ hb) (foldScores_ne_nil rs [] (Or.inr hne))
  | some best =>
      simp only [hb]
      have h1 := mem_le_sumVals _
        (foldScores_nonneg rs [] (by intro p hp; simp at hp) h) best (maxByVal_mem _ _ hb)
      rw [foldScores_sum rs []] at h1
      have h2 : sumVals ([] : List (String × ℚ)) = 0 := rfl
      rw [h2, zero_add] at h1
      exact h1

theorem combine_type_mem (rs : List IR) (hne : rs ≠ []) :
    (combine_intent_results rs).type ∈ rs.map IR.type := by
  unfold combine_intent_results
  cases hb : maxByVal (rs.foldl
      (fun acc r => addScore acc r.type (r.confidence * methodWeight r.method)) []) with
  | none =>
      exact absurd (maxByVal_eq_none _ hb) (foldScores_ne_nil rs [] (Or.inr hne))
  | some best =>
      simp only [hb]
      rcases foldScores_keys rs [] best (maxByVal_mem _ _ hb) with h | h
      · simp at h
      · exact h

theorem combine_default_general (kw sem pat : IR)
    (hk : kw.type ≠ "general") (hs : sem.type ≠ "general")
    (hkc : kw.confidence = 0) (hsc : sem.confidence = 0)
    (hpt : pat.type = "general") (hpc : pat.confidence = 3/10)
    (hpm : pat.method = "pattern") :
    (combine_intent_results [kw, sem, pat]).type = "general" := by
  simp only [combine_intent_results, List.foldl_cons, List.foldl_nil,
    hkc, hsc, hpt, hpc, hpm, methodWeight_pattern, zero_mul]
  have hacc1 : addScore ([] : List (String × ℚ)) kw.type 0 = [(kw.type, 0)] := rfl
  rw [hacc1]
  have hfresh : "general" ∉ (addScore [(kw.type, (0:ℚ))] sem.type 0).map Prod.fst := by
    intro hmem
    rcases List.mem_map.mp hmem with ⟨y, hy, hy1⟩
    rcases addScore_keys _ _ _ y hy with h | h
    · rcases List.mem_map.mp h with ⟨z, hz, hz1⟩
      rcases List.mem_singleton.mp hz with rfl
      exact hk (hz1.trans hy1)
    · exact hs (h.symm.trans hy1)
  rw [addScore_fresh (addScore [(kw.type, (0:ℚ))] sem.type 0) "general"
    (3/10 * (1/5)) hfresh]
  have hvals : ∀ y ∈ addScore [(kw.type, (0:ℚ))] sem.type 0, y.2 < 3/10 * (1/5) := by
    intro y hy
    have h0 := addScore_vals_le_zero [(kw.type, (0:ℚ))] sem.type 0
      (by intro p hp; rcases List.mem_singleton.mp hp with rfl; exact le_refl 0)
      (le_refl 0) y hy
    calc y.2 ≤ 0 := h0
      _ < 3/10 * (1/5) := by norm_num
  rw [maxByVal_append_strict _ ("general", 3/10 * (1/5)) hvals]

theorem recognize_intent_fast (q : String) (hq : q ≠ "")
    (hkw : (keyword_based_recognition (lowerStr q)).confidence > 4/5) :
    recognize_intent q = { keyword_based_recognition (lowerStr q) with
      target_word := if extract_target_word q ≠ "" then extract_target_word q
        else (keyword_based_recognition (lowerStr q)).target_word } := by
  unfold recognize_intent
  rw [if_neg hq]
  dsimp only
  rw [if_pos hkw]

theorem recognize_intent_slow (q : String) (hq : q ≠ "")
    (hkw : ¬ (keyword_based_recognition (lowerStr q)).confidence > 4/5) :
    recognize_intent q = { combinedIntent q with
      target_word := if (combinedIntent q).target_word ≠ ""
        then (combinedIntent q).target_word else extract_target_word q } := by
  unfold recognize_intent combinedIntent
  rw [if_neg hq]
  dsimp only
  rw [if_neg hkw]

set_option maxRecDepth 10000 in
theorem recognize_bounds (q : String) :
    0 ≤ (recognize_intent q).confidence ∧ (recognize_intent q).confidence ≤ 1 ∧
    (recognize_intent q).type ∈ IntentLabels := by
  by_cases hq : q = ""
  · subst hq
    have h0 : recognize_intent "" = ⟨"general", "", 0, "keyword"⟩ := rfl
    rw [h0]
    exact ⟨le_refl 0, by norm_num, by decide⟩
  · by_cases hkw : (keyword_based_recognition (lowerStr q)).confidence > 4/5
    · rw [recognize_intent_fast q hq hkw]
      obtain ⟨h1, h2, h3, _, _⟩ := keyword_based_facts (lowerStr q)
      exact ⟨h1, h2, (kwKeys_sub _ h3).1⟩
    · rw [recognize_intent_slow q hq hkw]
      have hnn : ∀ r ∈ [keyword_based_recognition (lowerStr q),
          semantic_similarity_recognition (lowerStr q), pattern_based_recognition q],
          0 ≤ r.confidence := by
        intro r hr
        simp only [List.mem_cons, List.not_mem_nil, or_false] at hr
        rcases hr with rfl | rfl | rfl
        · exact (keyword_based_facts (lowerStr q)).1
        · exact (semantic_based_facts (lowerStr q)).1
        · rcases (pattern_based_facts q).2.1 with h | h | h <;> rw [h] <;> norm_num
      refine ⟨?_, ?_, ?_⟩
      · exact combine_conf_nonneg _ hnn
      · have hle := combine_conf_le [keyword_based_recognition (lowerStr q),
            semantic_similarity_recognition (lowerStr q), pattern_based_recognition q]
            (by simp) hnn
        simp only [List.map_cons, List.map_nil, List.sum_cons, List.sum_nil,
          add_zero] at hle
        rw [(keyword_based_facts (lowerStr q)).2.2.2.2,
          (semantic_based_facts (lowerStr q)).2.2.2.2,
          (pattern_based_facts q).2.2.1,
          methodWeight_keyword, methodWeight_semantic, methodWeight_pattern] at hle
        have hk1 := (keyword_based_facts (lowerStr q)).2.1
        have hk0 := (keyword_based_facts (lowerStr q)).1
        have hs1 := (semantic_based_facts (lowerStr q)).2.1
        have hs0 := (semantic_based_facts (lowerStr q)).1
        have hp34 : (pattern_based_recognition q).confidence ≤ 3/4 := by
          rcases (pattern_based_facts q).2.1 with h | h | h <;> rw [h] <;> norm_num
        show (combinedIntent q).confidence ≤ 1
        unfold combinedIntent
        linarith
      · have hmem := combine_type_mem [keyword_based_recognition (lowerStr q),
            semantic_similarity_recognition (lowerStr q), pattern_based_recognition q]
            (by simp)
        simp only [List.map_cons, List.map_nil, List.mem_cons, List.not_mem_nil,
          or_false] at hmem
        show (combinedIntent q).type ∈ IntentLabels
        unfold combinedIntent
        rcases hmem with h | h | h
        · rw [h]; exact (kwKeys_sub _ (keyword_based_facts (lowerStr q)).2.2.1).1
        · rw [h]; exact (semKeys_sub _ (semantic_based_facts (lowerStr q)).2.2.1).1
        · rw [h]; exact (pattern_based_facts q).1

set_option maxRecDepth 10000 in
theorem combined_target_cases (q : String) :
    (combinedIntent q).target_word = extract_target_word (lowerStr q) ∨
    is_valid_target (combinedIntent q).target_word q = true ∨
    (combinedIntent q).target_word = extract_target_word q ∨
    (combinedIntent q).target_word = "" := by
  unfold combinedIntent combine_intent_results
  dsimp only
  cases hb : maxByVal ([keyword_based_recognition (lowerStr q),
      semantic_similarity_recognition (lowerStr q), pattern_based_recognition q].foldl
      (fun acc r => addScore acc r.type (r.confidence * methodWeight r.method)) []) with
  | none =>
      simp only [hb]
      right; right; right
      first
      | rfl
      | trivial
  | some best =>
      simp only [hb]
      rcases majorityTarget_mem ([keyword_based_recognition (lowerStr q),
          semantic_similarity_recognition (lowerStr q),
          pattern_based_recognition q].filterMap
          (fun r => if r.target_word ≠ "" then some r.target_word else none)) with
        hmem | hemp
      · rcases List.mem_filterMap.mp hmem with ⟨r, hr, hfi⟩
        by_cases hne : r.target_word ≠ ""
        · rw [if_pos hne] at hfi
          have heq := Option.some.inj hfi
          simp only [List.mem_cons, List.not_mem_nil, or_false] at hr
          rcases hr with rfl | rfl | rfl
          · left
            show majorityTarget _ = _
            rw [← heq]
            exact (keyword_based_facts (lowerStr q)).2.2.2.1
          · left
            show majorityTarget _ = _
            rw [← heq]
            exact (semantic_based_facts (lowerStr q)).2.2.2.1
          · rcases (pattern_based_facts q).2.2.2.1 with hv | he
            · right; left
              show is_valid_target (majorityTarget _) q = true
              rw [← heq]
              exact hv
            · right; right; left
              show majorityTarget _ = _
              rw [← heq]
              exact he
        · rw [if_neg hne] at hfi
          exact Option.noConfusion hfi
      · right; right; right
        exact hemp

set_option maxRecDepth 10000 in
theorem recognize_target_cases (q : String) (hq : q ≠ "") :
    (recognize_intent q).target_word = extract_target_word q ∨
    (recognize_intent q).target_word = extract_target_word (lowerStr q) ∨
    is_valid_target (recognize_intent q).target_word q = true := by
  by_cases hkw : (keyword_based_recognition (lowerStr q)).confidence > 4/5
  · have h1 := congrArg IR.target_word (recognize_intent_fast q hq hkw)
    dsimp only at h1
    by_cases ht : extract_target_word q ≠ ""
    · rw [if_pos ht] at h1
      left; exact h1
    · rw [if_neg ht] at h1
      rw [h1]
      right; left
      exact (keyword_based_facts (lowerStr q)).2.2.2.1
  · have h1 := congrArg IR.target_word (recognize_intent_slow q hq hkw)
    dsimp only at h1
    by_cases hc : (combinedIntent q).target_word ≠ ""
    · rw [if_pos hc] at h1
      rw [h1]
      rcases combined_target_cases q with h | h | h | h
      · right; left; exact h
      · right; right; exact h
      · left; exact h
      · exact absurd h hc
    · rw [if_neg hc] at h1
      left; exact h1

/-! ## Claim theorems: intent recognizer -/

set_option maxRecDepth 10000 in
/-- **C3**: for every query, `recognize_intent` returns a confidence in
[0,1] and an intent label from the fixed closed set `IntentLabels`; the
empty query yields `general` with confidence exactly 0; and when neither
the keyword nor the semantic signal produces a positive score and the
pattern signal yields only its `general` default, the combined label
defaults to `general`. -/
theorem C3_intent_contract :
    (∀ q : String, 0 ≤ (recognize_intent q).confidence ∧
      (recognize_intent q).confidence ≤ 1 ∧
      (recognize_intent q).type ∈ IntentLabels) ∧
    recognize_intent "" = ⟨"general", "", 0, "keyword"⟩ ∧
    ∀ q : String, (keyword_based_recognition (lowerStr q)).confidence = 0 →
      (semantic_similarity_recognition (lowerStr q)).confidence = 0 →
      (pattern_based_recognition q).type = "general" →
      (recognize_intent q).type = "general" := by
  refine ⟨recognize_bounds, rfl, ?_⟩
  intro q hkc hsc hpt
  by_cases hq : q = ""
  · subst hq; rfl
  · have hnot : ¬ (keyword_based_recognition (lowerStr q)).confidence > 4/5 := by
      rw [hkc]; norm_num
    have h1 := congrArg IR.type (recognize_intent_slow q hq hnot)
    dsimp only at h1
    rw [h1]
    show (combinedIntent q).type = "general"
    unfold combinedIntent
    exact combine_default_general _ _ _
      (kwKeys_sub _ (keyword_based_facts (lowerStr q)).2.2.1).2
      (semKeys_sub _ (semantic_based_facts (lowerStr q)).2.2.1).2
      hkc hsc hpt ((pattern_based_facts q).2.2.2.2 hpt)
      (pattern_based_facts q).2.2.1

set_option maxRecDepth 10000 in
/-- Witness for C3 at the query `"xyzzy"`: no keyword hits, no semantic
similarity, no matching pattern, and the result is `general` with a
confidence inside [0,1]. -/
theorem C3_witness :
    ((keyword_based_recognition (lowerStr "xyzzy")).confidence = 0 ∧
     (semantic_similarity_recognition (lowerStr "xyzzy")).confidence = 0 ∧
     (pattern_based_recognition "xyzzy").type = "general") ∧
    (recognize_intent "xyzzy").type = "general" ∧
    0 ≤ (recognize_intent "xyzzy").confidence ∧
    (recognize_intent "xyzzy").confidence ≤ 1 ∧
    (recognize_intent "xyzzy").type ∈ IntentLabels :=
  ⟨⟨by with_unfolding_all decide, by with_unfolding_all decide,
    by with_unfolding_all decide⟩,
   C3_intent_contract.2.2 "xyzzy" (by with_unfolding_all decide)
     (by with_unfolding_all decide) (by with_unfolding_all decide),
   (C3_intent_contract.1 "xyzzy").1, (C3_intent_contract.1 "xyzzy").2.1,
   (C3_intent_contract.1 "xyzzy").2.2⟩

set_option maxRecDepth 10000 in
/-- **C5**: for the query `"什么是 sensible"` the code returns intent
`general` with confidence 0.06 and target word `"sensible"` — not intent
`definition` as specified: no `definition` pattern matches the
`什么是 X` form, and the combined `definition` score never exceeds the
`general` default. -/
theorem C5_definition_query_misclassified :
    recognize_intent "什么是 sensible" = ⟨"general", "sensible", 3/50, ""⟩ ∧
    (recognize_intent "什么是 sensible").type ≠ "definition" ∧
    (recognize_intent "什么是 sensible").target_word = "sensible" := by
  with_unfolding_all decide

set_option maxRecDepth 10000 in
/-- **C9** (counterexample): for the query `"这是什么词"` the returned
target word is the whole query, which fails `_is_valid_target` — it
contains the stop word `"什么"` — because the `_extract_core_concept`
fallback inside `_extract_target_word` is not re-validated. -/
theorem C9_counterexample :
    (recognize_intent "这是什么词").target_word = "这是什么词" ∧
    (recognize_intent "这是什么词").target_word ≠ "" ∧
    is_valid_target (recognize_intent "这是什么词").target_word "这是什么词" = false ∧
    "什么" ∈ valid_stop_words ∧
    strIn "什么" (lowerStr (stripWS (recognize_intent "这是什么词").target_word)) = true := by
  with_unfolding_all decide

/-- **C9** (amended): every non-empty target word returned by
`recognize_intent` either passes `_is_valid_target` against the original
or the lower-cased query, or is the (un-revalidated) result of the
`_extract_core_concept` fallback for one of the two. -/
theorem C9_target_validation (q : String)
    (h : (recognize_intent q).target_word ≠ "") :
    is_valid_target (recognize_intent q).target_word q = true ∨
    is_valid_target (recognize_intent q).target_word (lowerStr q) = true ∨
    (recognize_intent q).target_word = extract_core_concept q ∨
    (recognize_intent q).target_word = extract_core_concept (lowerStr q) := by
  by_cases hq : q = ""
  · subst hq
    exact absurd rfl h
  · rcases recognize_target_cases q hq with ht | ht | ht
    · rcases extract_target_word_sound q with h0 | hv | he
      · exact absurd (ht.trans h0) h
      · left; rw [ht]; exact hv
      · right; right; left; exact ht.trans he
    · rcases extract_target_word_sound (lowerStr q) with h0 | hv | he
      · exact absurd (ht.trans h0) h
      · right; left; rw [ht]; exact hv
      · right; right; right; exact ht.trans he
    · left; exact ht

set_option maxRecDepth 10000 in
/-- Witness for the amended C9 at the query `"什么是 sensible"`, whose
target word `"sensible"` is non-empty. -/
theorem C9_witness :
    (recognize_intent "什么是 sensible").target_word ≠ "" ∧
    (is_valid_target (recognize_intent "什么是 sensible").target_word
        "什么是 sensible" = true ∨
     is_valid_target (recognize_intent "什么是 sensible").target_word
        (lowerStr "什么是 sensible") = true ∨
     (recognize_intent "什么是 sensible").target_word
        = extract_core_concept "什么是 sensible" ∨
     (recognize_intent "什么是 sensible").target_word
        = extract_core_concept (lowerStr "什么是 sensible")) :=
  ⟨by with_unfolding_all decide,
   C9_target_validation "什么是 sensible" (by with_unfolding_all decide)⟩
